import Mathlib

/-
Verification of the Newsbrief ingestion and summarization pipeline.

The Python sources are shallowly embedded as follows.

Strings handed to the URL machinery (src/app/ingest.py, `_normalize_url`)
are modelled as UTF-8 byte sequences, `List Nat` with every element
below 256.  The CPython `urllib.parse` helpers used by `_normalize_url`
(`urlsplit`, `parse_qsl`, `urlencode`, `urlunsplit`, and the quoting
primitives) are modelled byte for byte after their documented behaviour
(CPython 3.11 line of the library): this is external library code, but
`_normalize_url` is specified directly in terms of it.  Percent decoding
is kept at byte granularity; CPython additionally decodes those bytes as
UTF-8 with replacement characters before re-encoding them, which agrees
with the byte model on all valid UTF-8 and differs only in the textual
presentation of invalid sequences.  Python `str.strip` also removes a
few non-ASCII whitespace characters; the model covers the ASCII ones.

Strings handed to the summarizer (src/app/summarize.py) are modelled as
`List Char`, matching Python code-point semantics of `len` and slicing.
-/

/-! ### Generic character and list helpers -/

/-- Trim elements satisfying `p` from the front of a list. -/
def trimLeftP (p : α → Bool) (l : List α) : List α := l.dropWhile p

/-- Trim elements satisfying `p` from the back of a list. -/
def trimRightP (p : α → Bool) (l : List α) : List α :=
  (l.reverse.dropWhile p).reverse

/-- Trim elements satisfying `p` from both ends (Python `str.strip`). -/
def trimBothP (p : α → Bool) (l : List α) : List α :=
  trimRightP p (trimLeftP p l)

/-- Split at the first occurrence of `d`, removing it; `none` when `d`
is absent (Python `s.split(d, 1)` restricted to the found case). -/
def splitAtFirst [DecidableEq α] (d : α) : List α → Option (List α × List α)
  | [] => none
  | c :: cs =>
    if c = d then some ([], cs)
    else (splitAtFirst d cs).map (fun ab => (c :: ab.1, ab.2))

/-- Split at the first occurrence of `d`, returning the whole list and
an empty remainder when `d` is absent. -/
def splitFirstOr [DecidableEq α] (d : α) (l : List α) : List α × List α :=
  match splitAtFirst d l with
  | some ab => ab
  | none => (l, [])

/-- Split on every occurrence of `d` (Python `s.split(d)`). -/
def splitOn [DecidableEq α] (d : α) : List α → List (List α)
  | [] => [[]]
  | c :: cs =>
    if c = d then [] :: splitOn d cs
    else
      match splitOn d cs with
      | [] => [[c]]
      | p :: ps => (c :: p) :: ps

/-! ### Byte classification (ASCII) -/

/-- Python whitespace bytes relevant to `str.strip` and `\s`
(space, tab, LF, CR, FF, VT). -/
def isPyWsByte (b : Nat) : Bool :=
  b = 32 || b = 9 || b = 10 || b = 13 || b = 12 || b = 11

def isAsciiUpperB (b : Nat) : Bool := 65 ≤ b && b ≤ 90
def isAsciiLowerB (b : Nat) : Bool := 97 ≤ b && b ≤ 122
def isAsciiAlphaB (b : Nat) : Bool := isAsciiUpperB b || isAsciiLowerB b
def isAsciiDigitB (b : Nat) : Bool := 48 ≤ b && b ≤ 57

/-- ASCII lowercasing of one byte (`str.lower` restricted to ASCII,
which is all the callers compare against). -/
def toLowerByte (b : Nat) : Nat := if isAsciiUpperB b then b + 32 else b

/-- Bytes of an ASCII string literal. -/
def asciiBytes (s : String) : List Nat := s.data.map Char.toNat

/-- UTF-8 encoding of one character. -/
def utf8Char (c : Char) : List Nat :=
  let n := c.toNat
  if n < 128 then [n]
  else if n < 2048 then [192 + n / 64, 128 + n % 64]
  else if n < 65536 then [224 + n / 4096, 128 + n / 64 % 64, 128 + n % 64]
  else [240 + n / 262144, 128 + n / 4096 % 64, 128 + n / 64 % 64, 128 + n % 64]

/-- UTF-8 encoding of a character string. -/
def utf8Bytes (l : List Char) : List Nat := l.flatMap utf8Char

/-- Python `str.strip()` on a byte string (ASCII whitespace). -/
def pyStripBytes (l : List Nat) : List Nat := trimBothP isPyWsByte l

/-! ### Model of CPython `urllib.parse` (byte level)

These definitions model the library functions that
`src/app/ingest.py:_normalize_url` calls.  They follow the CPython
implementation: `urlsplit` removes tab, CR and LF bytes, detects an
ASCII-alpha-led scheme before the first colon, takes the authority
after `//` up to the first of `/`, `?`, `#`, rejects authorities with
unbalanced square brackets (`ValueError` modelled as `none`), then
splits off fragment at the first `#` and query at the first `?`. -/

structure SplitResult where
  scheme : List Nat
  netloc : List Nat
  path : List Nat
  query : List Nat
  fragment : List Nat
deriving DecidableEq, Repr

/-- Bytes CPython `urlsplit` removes from the URL before parsing
(tab, CR, LF). -/
def isUnsafeUrlByte (b : Nat) : Bool := b = 9 || b = 13 || b = 10

def removeUnsafe (l : List Nat) : List Nat := l.filter (fun b => !isUnsafeUrlByte b)

/-- Characters allowed in a scheme: letters, digits, `+`, `-`, `.`. -/
def isSchemeCharB (b : Nat) : Bool :=
  isAsciiAlphaB b || isAsciiDigitB b || b = 43 || b = 45 || b = 46

/-- Scheme detection: split at the first `:` when everything before it
is a valid scheme beginning with an ASCII letter; the scheme is
lowercased.  Otherwise the URL is left intact. -/
def splitScheme (url : List Nat) : List Nat × List Nat :=
  match splitAtFirst 58 url with
  | some (pre, post) =>
    match pre with
    | [] => ([], url)
    | p :: _ =>
      if isAsciiAlphaB p && pre.all isSchemeCharB then (pre.map toLowerByte, post)
      else ([], url)
  | none => ([], url)

/-- Bytes that terminate the authority component. -/
def isNetlocDelim (b : Nat) : Bool := b = 47 || b = 63 || b = 35

/-- Authority extraction: only when the remainder starts with `//`. -/
def splitNetloc (rest : List Nat) : List Nat × List Nat :=
  match rest with
  | a :: b :: r =>
    if a = 47 ∧ b = 47 then
      (r.takeWhile (fun c => !isNetlocDelim c), r.dropWhile (fun c => !isNetlocDelim c))
    else ([], rest)
  | _ => ([], rest)

/-- Unbalanced square brackets in the authority (`ValueError` in
CPython). -/
def bracketMismatch (netloc : List Nat) : Bool :=
  (netloc.contains 91) != (netloc.contains 93)

/-- Model of `urllib.parse.urlsplit` at byte level; `none` models the
`ValueError` raised on an invalid IPv6 authority. -/
def urlsplitB (url0 : List Nat) : Option SplitResult :=
  let url := removeUnsafe url0
  let sr := splitScheme url
  let nr := splitNetloc sr.2
  if bracketMismatch nr.1 then none
  else
    let f := splitFirstOr 35 nr.2
    let q := splitFirstOr 63 f.1
    some ⟨sr.1, nr.1, q.1, q.2, f.2⟩

def isHexDigitB (b : Nat) : Bool :=
  isAsciiDigitB b || (65 ≤ b && b ≤ 70) || (97 ≤ b && b ≤ 102)

def hexVal (b : Nat) : Nat :=
  if isAsciiDigitB b then b - 48
  else if 65 ≤ b && b ≤ 70 then b - 55
  else b - 87

/-- Model of `urllib.parse.unquote` at byte level: `%XX` with two hex
digits becomes the byte `XX`, anything else passes through. -/
def unquoteB : List Nat → List Nat
  | c :: a :: b :: rest =>
    if c = 37 ∧ isHexDigitB a ∧ isHexDigitB b then
      (hexVal a * 16 + hexVal b) :: unquoteB rest
    else c :: unquoteB (a :: b :: rest)
  | c :: rest => c :: unquoteB rest
  | [] => []

/-- `+` to space replacement done by `parse_qsl` before unquoting. -/
def plusToSpace (l : List Nat) : List Nat := l.map (fun b => if b = 43 then 32 else b)

def unquotePlusB (l : List Nat) : List Nat := unquoteB (plusToSpace l)

/-- Model of `urllib.parse.parse_qsl(qs, keep_blank_values=True)`:
split on `&`, skip empty chunks, split each chunk at the first `=`
(missing value becomes empty), then `+`-to-space and percent-decode
both sides. -/
def parse_qsl (qs : List Nat) : List (List Nat × List Nat) :=
  (splitOn 38 qs).filterMap fun nv =>
    if nv = [] then none
    else
      let p := splitFirstOr 61 nv
      some (unquotePlusB p.1, unquotePlusB p.2)

/-- Bytes `quote` never escapes: ASCII alphanumerics and `_.-~`. -/
def isSafeByte (b : Nat) : Bool :=
  isAsciiAlphaB b || isAsciiDigitB b || b = 95 || b = 46 || b = 45 || b = 126

def hexDigitUpper (n : Nat) : Nat := if n < 10 then 48 + n else 55 + n

/-- Model of `urllib.parse.quote_plus` with empty `safe` on one byte:
safe bytes pass, space becomes `+`, the rest becomes `%XX` with
uppercase hex. -/
def quotePlusByte (b : Nat) : List Nat :=
  if isSafeByte b then [b]
  else if b = 32 then [43]
  else [37, hexDigitUpper (b / 16), hexDigitUpper (b % 16)]

def quotePlusB (l : List Nat) : List Nat := l.flatMap quotePlusByte

/-- Model of `urllib.parse.urlencode(pairs, doseq=True)` for string
pairs: quote key and value, join with `=` and `&`. -/
def urlencodeB (pairs : List (List Nat × List Nat)) : List Nat :=
  List.intercalate [38] (pairs.map (fun kv => quotePlusB kv.1 ++ 61 :: quotePlusB kv.2))

/-- Model of `urllib.parse.urlunsplit`. -/
def urlunsplitB (r : SplitResult) : List Nat :=
  let url := r.path
  let url :=
    if r.netloc ≠ [] ∨ url.take 2 = [47, 47] then
      47 :: 47 :: r.netloc ++ (if url ≠ [] ∧ url.head? ≠ some 47 then 47 :: url else url)
    else url
  let url := if r.scheme ≠ [] then r.scheme ++ 58 :: url else url
  let url := if r.query ≠ [] then url ++ 63 :: r.query else url
  if r.fragment ≠ [] then url ++ 35 :: r.fragment else url

/-! ### `_normalize_url` (src/app/ingest.py lines 22-54) -/

/-- Query keys dropped by `_normalize_url`: lowercased key equal to one
of `fbclid`, `gclid`, `yclid`, `ref`, `referrer`, or starting with
`utm_`. -/
def isTrackingKey (k : List Nat) : Bool :=
  let kl := k.map toLowerByte
  kl = asciiBytes "fbclid" || kl = asciiBytes "gclid" || kl = asciiBytes "yclid" ||
    kl = asciiBytes "ref" || kl = asciiBytes "referrer" ||
    kl.take 4 = asciiBytes "utm_"

/-- Path normalization of `_normalize_url` line 48: for a non-empty
path, split on `/`, drop empty segments, rejoin behind a leading `/`;
an empty path becomes `/`. -/
def collapsePath (p : List Nat) : List Nat :=
  if p = [] then [47]
  else 47 :: List.intercalate [47] ((splitOn 47 p).filter (fun s => s ≠ []))

/-- `_normalize_url` lines 49-50: strip trailing slashes unless the
path is exactly `/` (Python `rstrip("/")`). -/
def stripTrailingSlash (p : List Nat) : List Nat :=
  if p ≠ [47] ∧ p.getLast? = some 47 then trimRightP (fun b => b = 47) p else p

/-- `_normalize_url` (src/app/ingest.py lines 22-54): drop the
fragment, drop tracking query parameters, collapse duplicate path
slashes, strip the trailing slash except for the root, reassemble; on
a parse failure return the stripped input. -/
def normalize_url (url : List Nat) : List Nat :=
  if url = [] then []
  else
    match urlsplitB url with
    | none => pyStripBytes url
    | some sp =>
      let q := (parse_qsl sp.query).filter (fun kv => !isTrackingKey kv.1)
      let query := urlencodeB q
      let path := stripTrailingSlash (collapsePath sp.path)
      urlunsplitB ⟨sp.scheme, sp.netloc, path, query, []⟩

example : normalize_url (asciiBytes "https://a.com/x/?utm_source=y") = asciiBytes "https://a.com/x" := by decide
example : normalize_url (asciiBytes "https://a.com/x/") = asciiBytes "https://a.com/x" := by decide
example : normalize_url (asciiBytes "https://a.com/") = asciiBytes "https://a.com/" := by decide
example : normalize_url (asciiBytes "https://a.com/a//b?fbclid=1&x=2#frag") = asciiBytes "https://a.com/a/b?x=2" := by decide

/-! ### Stored articles and the exact dedup stage
(src/app/models.py, src/app/ingest.py line 231) -/

/-- Stored article (src/app/models.py `Article`).  `url` holds the
normalized URL as bytes; textual fields are character strings; `id`
and `created_at` are represented by the position in the store list. -/
structure Article where
  title : List Char
  url : List Nat
  source_key : List Char
  source_title : List Char
  snippet : List Char
  summary : List Char
  image_url : Option (List Nat)
  published_at : Option Nat
  dedup_key : List Char
deriving DecidableEq, Repr

/-- Exact duplicate stage (src/app/ingest.py line 231): some stored
article has the candidate normalized URL or the candidate dedup key. -/
def exact_stage (db : List Article) (link : List Nat) (dedup_key : List Char) : Bool :=
  db.any (fun a => a.url = link || a.dedup_key = dedup_key)

/-- C1: normalizing the raw candidate URL drops `utm_source` and the
trailing slash, and the exact stage reports a duplicate whenever a
stored article carries an equal normalized URL or an equal dedup key. -/
theorem exact_dup_after_normalization :
    normalize_url (asciiBytes "https://a.com/x/?utm_source=y") = asciiBytes "https://a.com/x" ∧
    ∀ (db : List Article) (dk : List Char),
      (∃ a ∈ db, a.url = asciiBytes "https://a.com/x" ∨ a.dedup_key = dk) →
      exact_stage db (normalize_url (asciiBytes "https://a.com/x/?utm_source=y")) dk = true := by
  have hnorm : normalize_url (asciiBytes "https://a.com/x/?utm_source=y") =
      asciiBytes "https://a.com/x" := by decide
  refine ⟨hnorm, ?_⟩
  intro db dk h
  rcases h with ⟨a, ha, hcase⟩
  rw [hnorm]
  simp only [exact_stage, List.any_eq_true]
  refine ⟨a, ha, ?_⟩
  rcases hcase with h1 | h2
  · simp [h1]
  · simp [h2]

/-- Witness for C1 at a concrete one-article store. -/
theorem exact_dup_after_normalization_witness :
    exact_stage
      [{ title := ['t'], url := asciiBytes "https://a.com/x", source_key := [],
         source_title := [], snippet := [], summary := [], image_url := none,
         published_at := none, dedup_key := ['k'] }]
      (normalize_url (asciiBytes "https://a.com/x/?utm_source=y")) ['z'] = true :=
  exact_dup_after_normalization.2 _ ['z']
    ⟨_, List.mem_singleton.mpr rfl, Or.inl rfl⟩

/-! ### Generic lemmas about the list helpers -/

theorem dropWhile_idem (p : α → Bool) (l : List α) :
    (l.dropWhile p).dropWhile p = l.dropWhile p := by
  induction l with
  | nil => rfl
  | cons c cs ih =>
    by_cases h : p c
    · simpa [List.dropWhile_cons, h] using ih
    · simp [List.dropWhile_cons, h]

theorem head?_dropWhile_false (p : α → Bool) (l : List α) (c : α)
    (h : (l.dropWhile p).head? = some c) : p c = false := by
  induction l with
  | nil => simp at h
  | cons a as ih =>
    by_cases hp : p a
    · exact ih (by simpa [List.dropWhile_cons, hp] using h)
    · simp [List.dropWhile_cons, hp] at h
      subst h
      simpa using hp

theorem dropWhile_eq_self_of_head (p : α → Bool) (l : List α)
    (h : ∀ c, l.head? = some c → p c = false) : l.dropWhile p = l := by
  cases l with
  | nil => rfl
  | cons a as => simp [List.dropWhile_cons, h a rfl]

theorem dropWhile_append_all (p : α → Bool) (a b : List α) (h : ∀ c ∈ a, p c = true) :
    (a ++ b).dropWhile p = b.dropWhile p := by
  induction a with
  | nil => rfl
  | cons x xs ih =>
    simp only [List.cons_append, List.dropWhile_cons, h x (by simp)]
    exact ih (fun c hc => h c (by simp [hc]))

theorem takeWhile_append_all (p : α → Bool) (a b : List α) (h : ∀ c ∈ a, p c = true) :
    (a ++ b).takeWhile p = a ++ b.takeWhile p := by
  induction a with
  | nil => rfl
  | cons x xs ih =>
    simp only [List.cons_append, List.takeWhile_cons, h x (by simp)]
    simpa using ih (fun c hc => h c (by simp [hc]))

theorem takeWhile_append_stop (p : α → Bool) (a b : List α)
    (h : a.dropWhile p ≠ []) : (a ++ b).takeWhile p = a.takeWhile p := by
  induction a with
  | nil => simp at h
  | cons x xs ih =>
    by_cases hp : p x
    · simp only [List.cons_append, List.takeWhile_cons, hp, if_true]
      have := ih (by simpa [List.dropWhile_cons, hp] using h)
      simp [this]
    · simp [List.takeWhile_cons, hp]

theorem dropWhile_append_stop (p : α → Bool) (a b : List α)
    (h : a.dropWhile p ≠ []) : (a ++ b).dropWhile p = a.dropWhile p ++ b := by
  induction a with
  | nil => simp at h
  | cons x xs ih =>
    by_cases hp : p x
    · have := ih (by simpa [List.dropWhile_cons, hp] using h)
      simp [List.dropWhile_cons, hp, this]
    · simp [List.dropWhile_cons, hp]

theorem splitAtFirst_of_not_mem [DecidableEq α] (d : α) (l : List α) (h : d ∉ l) :
    splitAtFirst d l = none := by
  induction l with
  | nil => rfl
  | cons c cs ih =>
    have hcd : c ≠ d := fun e => h (by simp [e])
    simp [splitAtFirst, hcd, ih (fun e => h (by simp [e]))]

theorem splitAtFirst_append [DecidableEq α] (d : α) (a b : List α) (h : d ∉ a) :
    splitAtFirst d (a ++ d :: b) = some (a, b) := by
  induction a with
  | nil => simp [splitAtFirst]
  | cons c cs ih =>
    have hcd : c ≠ d := fun e => h (by simp [e])
    simp [splitAtFirst, hcd, ih (fun e => h (by simp [e]))]

theorem splitAtFirst_some [DecidableEq α] {d : α} {l a b : List α}
    (h : splitAtFirst d l = some (a, b)) : l = a ++ d :: b ∧ d ∉ a := by
  induction l generalizing a b with
  | nil => simp [splitAtFirst] at h
  | cons c cs ih =>
    by_cases hcd : c = d
    · subst hcd
      simp [splitAtFirst] at h
      rcases h with ⟨h1, h2⟩
      subst h1; subst h2
      simp
    · cases e : splitAtFirst d cs with
      | none => simp [splitAtFirst, hcd, e] at h
      | some ab =>
        simp [splitAtFirst, hcd, e] at h
        rcases h with ⟨h1, h2⟩
        rcases ih (a := ab.1) (b := ab.2) (by simpa using e) with ⟨h3, h4⟩
        subst h1; subst h2
        refine ⟨by simp [h3], ?_⟩
        intro hmem
        rcases List.mem_cons.mp hmem with h5 | h5
        · exact hcd h5.symm
        · exact h4 h5

theorem splitAtFirst_none_not_mem [DecidableEq α] {d : α} {l : List α}
    (h : splitAtFirst d l = none) : d ∉ l := by
  induction l with
  | nil => simp
  | cons c cs ih =>
    by_cases hcd : c = d
    · subst hcd; simp [splitAtFirst] at h
    · simp [splitAtFirst, hcd] at h
      intro hmem
      rcases List.mem_cons.mp hmem with h3 | h3
      · exact hcd h3.symm
      · exact ih h h3

theorem splitAtFirst_append_of_some [DecidableEq α] {d : α} {a x y : List α} (r : List α)
    (h : splitAtFirst d a = some (x, y)) :
    splitAtFirst d (a ++ r) = some (x, y ++ r) := by
  rcases splitAtFirst_some h with ⟨h1, h2⟩
  subst h1
  simpa using splitAtFirst_append d x (y ++ r) h2

theorem splitOn_of_not_mem [DecidableEq α] (d : α) (l : List α) (h : d ∉ l) :
    splitOn d l = [l] := by
  induction l with
  | nil => rfl
  | cons c cs ih =>
    have hcd : c ≠ d := fun e => h (by simp [e])
    have := ih (fun e => h (by simp [e]))
    simp [splitOn, hcd, this]

theorem splitOn_cons_self [DecidableEq α] (d : α) (r : List α) :
    splitOn d (d :: r) = [] :: splitOn d r := by
  simp [splitOn]

theorem splitOn_ne_nil [DecidableEq α] (d : α) (l : List α) : splitOn d l ≠ [] := by
  induction l with
  | nil => simp [splitOn]
  | cons c cs ih =>
    by_cases hcd : c = d
    · simp [splitOn, hcd]
    · simp only [splitOn, if_neg hcd]
      cases e : splitOn d cs with
      | nil => simp
      | cons p ps => simp

theorem splitOn_append [DecidableEq α] (d : α) (a r : List α) (h : d ∉ a) :
    splitOn d (a ++ d :: r) = a :: splitOn d r := by
  induction a with
  | nil => simp [splitOn]
  | cons c cs ih =>
    have hcd : c ≠ d := fun e => h (by simp [e])
    have := ih (fun e => h (by simp [e]))
    simp [splitOn, hcd, this]

theorem intercalate_nil (s : List α) : List.intercalate s [] = [] := rfl

theorem intercalate_single (s a : List α) : List.intercalate s [a] = a := by
  simp [List.intercalate, List.intersperse]

theorem intercalate_cons₂ (s a b : List α) (t : List (List α)) :
    List.intercalate s (a :: b :: t) = a ++ s ++ List.intercalate s (b :: t) := by
  simp [List.intercalate, List.intersperse]

theorem splitOn_intercalate [DecidableEq α] (d : α) (ps : List (List α))
    (hne : ps ≠ []) (h : ∀ p ∈ ps, d ∉ p) :
    splitOn d (List.intercalate [d] ps) = ps := by
  induction ps with
  | nil => exact absurd rfl hne
  | cons p ps ih =>
    cases ps with
    | nil => simpa [intercalate_single] using splitOn_of_not_mem d p (h p (by simp))
    | cons q qs =>
      rw [intercalate_cons₂]
      have h1 : d ∉ p := h p (by simp)
      calc splitOn d (p ++ [d] ++ List.intercalate [d] (q :: qs))
          = splitOn d (p ++ d :: List.intercalate [d] (q :: qs)) := by simp
        _ = p :: splitOn d (List.intercalate [d] (q :: qs)) := splitOn_append d p _ h1
        _ = p :: (q :: qs) := by
            rw [ih (by simp) (fun x hx => h x (by simp [hx]))]

theorem mem_splitOn_mem [DecidableEq α] {d : α} {l q : List α} {c : α}
    (hq : q ∈ splitOn d l) (hc : c ∈ q) : c ∈ l := by
  induction l generalizing q with
  | nil =>
    simp [splitOn] at hq
    subst hq
    simp at hc
  | cons x xs ih =>
    by_cases hcd : x = d
    · subst hcd
      rw [splitOn_cons_self] at hq
      rcases List.mem_cons.mp hq with h1 | h1
      · subst h1; simp at hc
      · exact List.mem_cons_of_mem _ (ih h1 hc)
    · simp only [splitOn, if_neg hcd] at hq
      cases e : splitOn d xs with
      | nil => exact absurd e (splitOn_ne_nil d xs)
      | cons p pss =>
        rw [e] at hq
        rcases List.mem_cons.mp hq with h1 | h1
        · subst h1
          rcases List.mem_cons.mp hc with h2 | h2
          · simp [h2]
          · exact List.mem_cons_of_mem _ (ih (by rw [e]; exact List.mem_cons_self p pss) h2)
        · exact List.mem_cons_of_mem _ (ih (by rw [e]; exact List.mem_cons_of_mem _ h1) hc)

theorem not_mem_of_mem_splitOn [DecidableEq α] {d : α} {l q : List α}
    (hq : q ∈ splitOn d l) : d ∉ q := by
  induction l generalizing q with
  | nil =>
    simp [splitOn] at hq
    subst hq; simp
  | cons x xs ih =>
    by_cases hcd : x = d
    · subst hcd
      rw [splitOn_cons_self] at hq
      rcases List.mem_cons.mp hq with h1 | h1
      · subst h1; simp
      · exact ih h1
    · simp only [splitOn, if_neg hcd] at hq
      cases e : splitOn d xs with
      | nil => exact absurd e (splitOn_ne_nil d xs)
      | cons p pss =>
        rw [e] at hq
        rcases List.mem_cons.mp hq with h1 | h1
        · subst h1
          intro hmem
          rcases List.mem_cons.mp hmem with h2 | h2
          · exact hcd h2.symm
          · exact ih (by rw [e]; exact List.mem_cons_self p pss) h2
        · exact ih (by rw [e]; exact List.mem_cons_of_mem _ h1)

/-! ### Byte-class characterizations -/

theorem isAsciiDigitB_iff {b : Nat} : isAsciiDigitB b = true ↔ 48 ≤ b ∧ b ≤ 57 := by
  simp [isAsciiDigitB]

theorem isAsciiUpperB_iff {b : Nat} : isAsciiUpperB b = true ↔ 65 ≤ b ∧ b ≤ 90 := by
  simp [isAsciiUpperB]

theorem isAsciiLowerB_iff {b : Nat} : isAsciiLowerB b = true ↔ 97 ≤ b ∧ b ≤ 122 := by
  simp [isAsciiLowerB]

theorem isAsciiAlphaB_iff {b : Nat} :
    isAsciiAlphaB b = true ↔ (65 ≤ b ∧ b ≤ 90) ∨ (97 ≤ b ∧ b ≤ 122) := by
  simp [isAsciiAlphaB, isAsciiUpperB, isAsciiLowerB]

theorem isSafeByte_iff {b : Nat} :
    isSafeByte b = true ↔
      (65 ≤ b ∧ b ≤ 90) ∨ (97 ≤ b ∧ b ≤ 122) ∨ (48 ≤ b ∧ b ≤ 57) ∨
        b = 95 ∨ b = 46 ∨ b = 45 ∨ b = 126 := by
  simp [isSafeByte, isAsciiAlphaB, isAsciiUpperB, isAsciiLowerB, isAsciiDigitB]
  tauto

theorem isHexDigitB_iff {b : Nat} :
    isHexDigitB b = true ↔ (48 ≤ b ∧ b ≤ 57) ∨ (65 ≤ b ∧ b ≤ 70) ∨ (97 ≤ b ∧ b ≤ 102) := by
  simp [isHexDigitB, isAsciiDigitB]
  tauto

theorem isPyWsByte_iff {b : Nat} :
    isPyWsByte b = true ↔ b = 32 ∨ b = 9 ∨ b = 10 ∨ b = 13 ∨ b = 12 ∨ b = 11 := by
  simp [isPyWsByte]
  tauto

theorem isUnsafeUrlByte_iff {b : Nat} :
    isUnsafeUrlByte b = true ↔ b = 9 ∨ b = 13 ∨ b = 10 := by
  simp [isUnsafeUrlByte]
  tauto

theorem isNetlocDelim_iff {b : Nat} :
    isNetlocDelim b = true ↔ b = 47 ∨ b = 63 ∨ b = 35 := by
  simp [isNetlocDelim]
  tauto

theorem isSchemeCharB_iff {b : Nat} :
    isSchemeCharB b = true ↔
      (65 ≤ b ∧ b ≤ 90) ∨ (97 ≤ b ∧ b ≤ 122) ∨ (48 ≤ b ∧ b ≤ 57) ∨
        b = 43 ∨ b = 45 ∨ b = 46 := by
  simp [isSchemeCharB, isAsciiAlphaB, isAsciiUpperB, isAsciiLowerB, isAsciiDigitB]
  tauto

/-- Uppercase-hex output alphabet of `hexDigitUpper`. -/
def isUpperHexB (b : Nat) : Bool := isAsciiDigitB b || (65 ≤ b && b ≤ 70)

theorem isUpperHexB_iff {b : Nat} :
    isUpperHexB b = true ↔ (48 ≤ b ∧ b ≤ 57) ∨ (65 ≤ b ∧ b ≤ 70) := by
  simp [isUpperHexB, isAsciiDigitB]

/-- Alphabet of `quotePlusB` output bytes. -/
def isQuotedByte (b : Nat) : Bool := isSafeByte b || b = 43 || b = 37 || isUpperHexB b

/-- Alphabet of `urlencodeB` output bytes (quoted bytes plus the `=`
and `&` separators). -/
def isQueryOutByte (b : Nat) : Bool := isQuotedByte b || b = 61 || b = 38

theorem hexDigitUpper_spec {x : Nat} (h : x < 16) :
    isUpperHexB (hexDigitUpper x) = true ∧ hexVal (hexDigitUpper x) = x := by
  by_cases h10 : x < 10
  · have e : hexDigitUpper x = 48 + x := by simp [hexDigitUpper, h10]
    have hd : isAsciiDigitB (48 + x) = true := by rw [isAsciiDigitB_iff]; omega
    constructor
    · rw [e, isUpperHexB_iff]; left; omega
    · rw [e]
      simp [hexVal, hd]
  · have e : hexDigitUpper x = 55 + x := by simp [hexDigitUpper, h10]
    have hd : isAsciiDigitB (55 + x) = false := by
      simp [isAsciiDigitB]; omega
    constructor
    · rw [e, isUpperHexB_iff]; right; omega
    · rw [e]
      have h65 : (65 ≤ 55 + x && 55 + x ≤ 70) = true := by simp; omega
      simp [hexVal, hd, h65]

theorem isUpperHexB_isHex {b : Nat} (h : isUpperHexB b = true) : isHexDigitB b = true := by
  rw [isUpperHexB_iff] at h
  rw [isHexDigitB_iff]
  tauto

theorem mem_quotePlusByte {b c : Nat} (hb : b < 256) (hc : c ∈ quotePlusByte b) :
    isQuotedByte c = true := by
  unfold quotePlusByte at hc
  by_cases hs : isSafeByte b
  · rw [if_pos hs] at hc
    simp at hc
    subst hc
    simp [isQuotedByte, hs]
  · rw [if_neg hs] at hc
    by_cases h32 : b = 32
    · simp [h32] at hc
      subst hc
      simp [isQuotedByte]
    · simp [h32] at hc
      have hdiv : b / 16 < 16 := by omega
      have hmod : b % 16 < 16 := by omega
      rcases hc with h | h | h
      · subst h; simp [isQuotedByte]
      · subst h; simp [isQuotedByte, (hexDigitUpper_spec hdiv).1]
      · subst h; simp [isQuotedByte, (hexDigitUpper_spec hmod).1]

theorem mem_quotePlusB {l : List Nat} {c : Nat} (hl : ∀ b ∈ l, b < 256)
    (hc : c ∈ quotePlusB l) : isQuotedByte c = true := by
  rcases List.mem_flatMap.mp hc with ⟨b, hb, hcb⟩
  exact mem_quotePlusByte (hl b hb) hcb

theorem isQuotedByte_excl {c : Nat} (h : isQuotedByte c = true) :
    c ≠ 58 ∧ c ≠ 47 ∧ c ≠ 63 ∧ c ≠ 35 ∧ c ≠ 91 ∧ c ≠ 93 ∧ c ≠ 38 ∧ c ≠ 61 ∧
      isUnsafeUrlByte c = false ∧ isNetlocDelim c = false := by
  simp only [isQuotedByte, Bool.or_eq_true] at h
  have : (65 ≤ c ∧ c ≤ 90) ∨ (97 ≤ c ∧ c ≤ 122) ∨ (48 ≤ c ∧ c ≤ 57) ∨
      c = 95 ∨ c = 46 ∨ c = 45 ∨ c = 126 ∨ c = 43 ∨ c = 37 ∨ (65 ≤ c ∧ c ≤ 70) := by
    rcases h with ((h | h) | h) | h
    · rcases isSafeByte_iff.mp h with h | h | h | h | h | h | h <;> tauto
    · simp at h; tauto
    · simp at h; tauto
    · rcases isUpperHexB_iff.mp h with h | h <;> tauto
  refine ⟨?_, ?_, ?_, ?_, ?_, ?_, ?_, ?_, ?_, ?_⟩ <;>
    first
      | (rw [isUnsafeUrlByte]; simp; omega)
      | (rw [isNetlocDelim]; simp; omega)
      | omega

/-! ### Round trip of quoting and unquoting -/

theorem unquoteB_cons_ne {c : Nat} (l : List Nat) (hc : c ≠ 37) :
    unquoteB (c :: l) = c :: unquoteB l := by
  match l with
  | [] => rfl
  | [a] => rfl
  | a :: b :: t => simp [unquoteB, hc]

theorem unquoteB_hex {a b : Nat} (rest : List Nat)
    (ha : isHexDigitB a = true) (hb : isHexDigitB b = true) :
    unquoteB (37 :: a :: b :: rest) = (hexVal a * 16 + hexVal b) :: unquoteB rest := by
  simp [unquoteB, ha, hb]

theorem isSafeByte_excl {b : Nat} (h : isSafeByte b = true) :
    b ≠ 43 ∧ b ≠ 37 ∧ b ≠ 32 := by
  rcases isSafeByte_iff.mp h with h | h | h | h | h | h | h <;> omega

theorem isUpperHexB_excl {b : Nat} (h : isUpperHexB b = true) :
    b ≠ 43 ∧ b ≠ 37 := by
  rcases isUpperHexB_iff.mp h with h | h <;> omega

theorem unquotePlusB_quotePlusB {l : List Nat} (hl : ∀ b ∈ l, b < 256) :
    unquotePlusB (quotePlusB l) = l := by
  induction l with
  | nil => rfl
  | cons b rest ih =>
    have hb : b < 256 := hl b (by simp)
    have hrest : ∀ c ∈ rest, c < 256 := fun c hc => hl c (by simp [hc])
    have hq : quotePlusB (b :: rest) = quotePlusByte b ++ quotePlusB rest := by
      simp [quotePlusB]
    unfold unquotePlusB at ih ⊢
    rw [hq, plusToSpace, List.map_append]
    by_cases hs : isSafeByte b
    · have hb43 : b ≠ 43 := (isSafeByte_excl hs).1
      have hb37 : b ≠ 37 := (isSafeByte_excl hs).2.1
      have e : quotePlusByte b = [b] := by simp [quotePlusByte, hs]
      rw [e]
      simp only [List.map_cons, List.map_nil, if_neg hb43, List.singleton_append]
      rw [unquoteB_cons_ne _ hb37]
      rw [show (List.map (fun x => if x = 43 then 32 else x) (quotePlusB rest)) =
        plusToSpace (quotePlusB rest) from rfl]
      rw [ih hrest]
    · by_cases h32 : b = 32
      · subst h32
        have e : quotePlusByte 32 = [43] := by simp [quotePlusByte, hs]
        rw [e]
        simp only [List.map_cons, List.map_nil, if_pos rfl, List.singleton_append]
        rw [unquoteB_cons_ne _ (by decide)]
        rw [show (List.map (fun x => if x = 43 then 32 else x) (quotePlusB rest)) =
          plusToSpace (quotePlusB rest) from rfl]
        rw [ih hrest]
        simp
      · have e : quotePlusByte b = [37, hexDigitUpper (b / 16), hexDigitUpper (b % 16)] := by
          simp [quotePlusByte, hs, h32]
        have hdiv : b / 16 < 16 := by omega
        have hmod : b % 16 < 16 := by omega
        have s1 := hexDigitUpper_spec hdiv
        have s2 := hexDigitUpper_spec hmod
        have n1 : hexDigitUpper (b / 16) ≠ 43 := (isUpperHexB_excl s1.1).1
        have n2 : hexDigitUpper (b % 16) ≠ 43 := (isUpperHexB_excl s2.1).1
        rw [e]
        simp only [List.map_cons, List.map_nil, if_neg n1, if_neg n2,
          if_neg (by decide : ¬(37 = 43))]
        rw [List.cons_append, List.cons_append, List.cons_append, List.nil_append]
        rw [unquoteB_hex _ (isUpperHexB_isHex s1.1) (isUpperHexB_isHex s2.1)]
        rw [s1.2, s2.2]
        rw [show (List.map (fun x => if x = 43 then 32 else x) (quotePlusB rest)) =
          plusToSpace (quotePlusB rest) from rfl]
        rw [ih hrest]
        congr 1
        omega

theorem mem_intercalate_single {d c : α} {ps : List (List α)}
    (h : c ∈ List.intercalate [d] ps) : c = d ∨ ∃ p ∈ ps, c ∈ p := by
  induction ps with
  | nil => simp [intercalate_nil] at h
  | cons p ps ih =>
    cases ps with
    | nil =>
      rw [intercalate_single] at h
      exact Or.inr ⟨p, by simp, h⟩
    | cons q qs =>
      rw [intercalate_cons₂] at h
      rcases List.mem_append.mp h with h1 | h1
      · rcases List.mem_append.mp h1 with h2 | h2
        · exact Or.inr ⟨p, by simp, h2⟩
        · simp at h2
          exact Or.inl h2
      · rcases ih h1 with h2 | ⟨r, hr, hcr⟩
        · exact Or.inl h2
        · exact Or.inr ⟨r, by simp [hr], hcr⟩

theorem mem_urlencodeB {pairs : List (List Nat × List Nat)} {c : Nat}
    (hwf : ∀ kv ∈ pairs, (∀ b ∈ kv.1, b < 256) ∧ (∀ b ∈ kv.2, b < 256))
    (hc : c ∈ urlencodeB pairs) : isQueryOutByte c = true := by
  rcases mem_intercalate_single hc with h | ⟨p, hp, hcp⟩
  · simp [isQueryOutByte, h]
  · rcases List.mem_map.mp hp with ⟨kv, hkv, henc⟩
    subst henc
    rcases List.mem_append.mp hcp with h1 | h1
    · have := mem_quotePlusB (hwf kv hkv).1 h1
      simp [isQueryOutByte, this]
    · rcases List.mem_cons.mp h1 with h2 | h2
      · simp [isQueryOutByte, h2]
      · have := mem_quotePlusB (hwf kv hkv).2 h2
        simp [isQueryOutByte, this]

theorem filterMap_map_some {f : β → Option α} {g : α → β} {l : List α}
    (h : ∀ x ∈ l, f (g x) = some x) : (l.map g).filterMap f = l := by
  induction l with
  | nil => rfl
  | cons a t ih =>
    simp only [List.map_cons, List.filterMap_cons, h a (by simp)]
    rw [ih (fun x hx => h x (by simp [hx]))]

/-- Parsing an encoded query recovers the pairs (byte strings only). -/
theorem parse_qsl_urlencodeB {pairs : List (List Nat × List Nat)}
    (hwf : ∀ kv ∈ pairs, (∀ b ∈ kv.1, b < 256) ∧ (∀ b ∈ kv.2, b < 256)) :
    parse_qsl (urlencodeB pairs) = pairs := by
  cases pairs with
  | nil => decide
  | cons kv0 rest =>
    unfold parse_qsl urlencodeB
    set ps := (kv0 :: rest).map (fun kv => quotePlusB kv.1 ++ 61 :: quotePlusB kv.2) with hps
    have hsplit : splitOn 38 (List.intercalate [38] ps) = ps := by
      refine splitOn_intercalate 38 ps (by simp [hps]) ?_
      intro p hp hmem
      rcases List.mem_map.mp (hps ▸ hp) with ⟨kv, hkv, henc⟩
      subst henc
      rcases List.mem_append.mp hmem with h1 | h1
      · exact absurd (isQuotedByte_excl (mem_quotePlusB (hwf kv hkv).1 h1)).2.2.2.2.2.2.1 (by simp)
      · rcases List.mem_cons.mp h1 with h2 | h2
        · omega
        · exact absurd (isQuotedByte_excl (mem_quotePlusB (hwf kv hkv).2 h2)).2.2.2.2.2.2.1 (by simp)
    rw [hsplit, hps]
    refine filterMap_map_some ?_
    intro kv hkv
    have hk61 : (61 : Nat) ∉ quotePlusB kv.1 := by
      intro hmem
      exact absurd (isQuotedByte_excl (mem_quotePlusB (hwf kv hkv).1 hmem)).2.2.2.2.2.2.2.1 (by simp)
    have hne : quotePlusB kv.1 ++ 61 :: quotePlusB kv.2 ≠ [] := by simp
    rw [if_neg hne]
    have e : splitFirstOr 61 (quotePlusB kv.1 ++ 61 :: quotePlusB kv.2) =
        (quotePlusB kv.1, quotePlusB kv.2) := by
      unfold splitFirstOr
      rw [splitAtFirst_append 61 _ _ hk61]
    rw [e]
    simp only
    rw [unquotePlusB_quotePlusB (hwf kv hkv).1, unquotePlusB_quotePlusB (hwf kv hkv).2]

/-! ### Path collapse properties -/

theorem getLast?_cons_ne_nil {a : α} {l : List α} (h : l ≠ []) :
    (a :: l).getLast? = l.getLast? := by
  cases l with
  | nil => exact absurd rfl h
  | cons b t => simp [List.getLast?_cons_cons]

theorem intercalate_ne_nil {d : α} {s : List α} (ss : List (List α)) (hs : s ≠ []) :
    List.intercalate [d] (s :: ss) ≠ [] := by
  cases ss with
  | nil => simpa [intercalate_single] using hs
  | cons t ts =>
    rw [intercalate_cons₂]
    simp [hs]

theorem getLast?_intercalate_ne {d : α} {s : List α} {ss : List (List α)} {c : α}
    (hs : s ≠ []) (hds : d ∉ s) (hss : ∀ t ∈ ss, t ≠ [] ∧ d ∉ t)
    (h : (List.intercalate [d] (s :: ss)).getLast? = some c) : c ≠ d := by
  induction ss generalizing s with
  | nil =>
    rw [intercalate_single] at h
    intro e
    subst e
    exact hds (List.mem_of_mem_getLast? h)
  | cons t ts ih =>
    rw [intercalate_cons₂] at h
    have hne : List.intercalate [d] (t :: ts) ≠ [] :=
      intercalate_ne_nil ts (hss t (by simp)).1
    rw [List.getLast?_append_of_ne_nil _ hne] at h
    exact ih (hss t (by simp)).1 (hss t (by simp)).2
      (fun r hr => hss r (by simp [hr])) h

theorem head_intercalate {d : α} {s : List α} (ss : List (List α)) (hs : s ≠ []) :
    (List.intercalate [d] (s :: ss)).head? = s.head? := by
  cases ss with
  | nil => rw [intercalate_single]
  | cons t ts =>
    rw [intercalate_cons₂]
    cases s with
    | nil => exact absurd rfl hs
    | cons a as => simp

/-- Segments produced by `collapsePath` (nonempty pieces of the slash
split). -/
def pathSegs (p : List Nat) : List (List Nat) :=
  (splitOn 47 p).filter (fun s => s ≠ [])

theorem pathSegs_spec {p : List Nat} {s : List Nat} (h : s ∈ pathSegs p) :
    s ≠ [] ∧ (47 : Nat) ∉ s := by
  rcases List.mem_filter.mp h with ⟨h1, h2⟩
  exact ⟨by simpa using h2, not_mem_of_mem_splitOn h1⟩

theorem collapsePath_eq (p : List Nat) (hp : p ≠ []) :
    collapsePath p = 47 :: List.intercalate [47] (pathSegs p) := by
  simp [collapsePath, hp, pathSegs]

theorem stripTrailingSlash_collapsePath (p : List Nat) :
    stripTrailingSlash (collapsePath p) = collapsePath p := by
  by_cases hp : p = []
  · subst hp; decide
  · rw [collapsePath_eq p hp]
    cases e : pathSegs p with
    | nil => simp [stripTrailingSlash, intercalate_nil]
    | cons s ss =>
      unfold stripTrailingSlash
      rw [if_neg]
      intro ⟨h1, h2⟩
      have hne : List.intercalate [47] (s :: ss) ≠ [] :=
        intercalate_ne_nil ss (pathSegs_spec (e ▸ List.mem_cons_self s ss)).1
      rw [getLast?_cons_ne_nil hne] at h2
      exact getLast?_intercalate_ne
        (pathSegs_spec (e ▸ List.mem_cons_self s ss)).1
        (pathSegs_spec (e ▸ List.mem_cons_self s ss)).2
        (fun t ht => pathSegs_spec (e ▸ List.mem_cons_of_mem s ht)) h2 rfl

theorem collapsePath_idem (p : List Nat) :
    collapsePath (collapsePath p) = collapsePath p := by
  by_cases hp : p = []
  · subst hp; decide
  · rw [collapsePath_eq p hp]
    cases e : pathSegs p with
    | nil => decide
    | cons s ss =>
      have hall : ∀ t ∈ s :: ss, (47 : Nat) ∉ t :=
        fun t ht => (pathSegs_spec (e ▸ ht)).2
      have hallne : ∀ t ∈ s :: ss, t ≠ [] :=
        fun t ht => (pathSegs_spec (e ▸ ht)).1
      rw [collapsePath_eq _ (by simp)]
      congr 1
      unfold pathSegs
      rw [splitOn_cons_self, splitOn_intercalate 47 _ (by simp) hall]
      rw [List.filter_cons]
      simp only [decide_not]
      rw [if_neg (by simp)]
      rw [List.filter_eq_self.mpr]
      intro t ht
      simpa using hallne t ht

theorem collapsePath_head_shape (p : List Nat) :
    collapsePath p = [47] ∨ ∃ c cs, collapsePath p = 47 :: c :: cs ∧ c ≠ 47 := by
  by_cases hp : p = []
  · subst hp; left; rfl
  · rw [collapsePath_eq p hp]
    cases e : pathSegs p with
    | nil => left; simp [intercalate_nil]
    | cons s ss =>
      right
      have hs := pathSegs_spec (e ▸ List.mem_cons_self s ss)
      cases eh : (List.intercalate [47] (s :: ss)) with
      | nil => exact absurd eh (intercalate_ne_nil ss hs.1)
      | cons c cs =>
        refine ⟨c, cs, rfl, ?_⟩
        have := head_intercalate (d := 47) ss hs.1
        rw [eh] at this
        cases s with
        | nil => exact absurd rfl hs.1
        | cons a as =>
          simp at this
          subst this
          intro h47
          exact hs.2 (by simp [h47])

theorem mem_collapsePath {p : List Nat} {c : Nat} (h : c ∈ collapsePath p) :
    c = 47 ∨ c ∈ p := by
  by_cases hp : p = []
  · subst hp
    simp [collapsePath] at h
    left; exact h
  · rw [collapsePath_eq p hp] at h
    rcases List.mem_cons.mp h with h1 | h1
    · left; exact h1
    · rcases mem_intercalate_single h1 with h2 | ⟨q, hq, hcq⟩
      · left; exact h2
      · right
        exact mem_splitOn_mem (List.mem_filter.mp hq).1 hcq

/-! ### Re-parsing a reassembled URL -/

theorem isSchemeCharB_excl {b : Nat} (h : isSchemeCharB b = true) :
    b ≠ 58 ∧ isUnsafeUrlByte b = false := by
  rcases isSchemeCharB_iff.mp h with h | h | h | h | h | h <;>
    first
      | (constructor; · omega
         · rw [isUnsafeUrlByte]; simp; omega)

theorem isQueryOutByte_excl {c : Nat} (h : isQueryOutByte c = true) :
    c ≠ 58 ∧ c ≠ 47 ∧ c ≠ 35 ∧ isUnsafeUrlByte c = false := by
  simp only [isQueryOutByte, Bool.or_eq_true] at h
  rcases h with (h | h) | h
  · have := isQuotedByte_excl h
    exact ⟨this.1, this.2.1, this.2.2.2.1, this.2.2.2.2.2.2.2.2.1⟩
  · simp at h
    subst h
    refine ⟨by omega, by omega, by omega, by rw [isUnsafeUrlByte]; simp⟩
  · simp at h
    subst h
    refine ⟨by omega, by omega, by omega, by rw [isUnsafeUrlByte]; simp⟩

theorem removeUnsafe_eq_self {l : List Nat} (h : ∀ c ∈ l, isUnsafeUrlByte c = false) :
    removeUnsafe l = l := by
  unfold removeUnsafe
  rw [List.filter_eq_self]
  intro c hc
  simp [h c hc]

theorem splitScheme_head47 {z : List Nat} (h : z.head? = some 47) :
    splitScheme z = ([], z) := by
  cases z with
  | nil => simp at h
  | cons a t =>
    simp at h
    subst h
    unfold splitScheme
    unfold splitAtFirst
    rw [if_neg (by decide : ¬(47 : Nat) = 58)]
    cases e : splitAtFirst 58 t with
    | none => simp
    | some ab => simp [isAsciiAlphaB, isAsciiUpperB, isAsciiLowerB]

theorem splitScheme_valid {s z : List Nat} {c : Nat} {cs : List Nat}
    (hcons : s = c :: cs) (halpha : isAsciiAlphaB c = true)
    (hall : ∀ b ∈ s, isSchemeCharB b = true) (hlow : s.map toLowerByte = s) :
    splitScheme (s ++ 58 :: z) = (s, z) := by
  have h58 : (58 : Nat) ∉ s := fun hm => (isSchemeCharB_excl (hall 58 hm)).1 rfl
  unfold splitScheme
  rw [splitAtFirst_append 58 s z h58]
  subst hcons
  simp only [halpha, Bool.true_and]
  rw [if_pos]
  · rw [hlow]
  · rw [List.all_eq_true]
    intro b hb
    exact hall b hb

theorem splitNetloc_eq_self {z : List Nat} (h : z.take 2 ≠ [47, 47]) :
    splitNetloc z = ([], z) := by
  match z with
  | [] => rfl
  | [a] => rfl
  | a :: b :: r =>
    show (if a = 47 ∧ b = 47 then
        (r.takeWhile (fun c => !isNetlocDelim c), r.dropWhile (fun c => !isNetlocDelim c))
      else ([], a :: b :: r)) = ([], a :: b :: r)
    rw [if_neg]
    intro ⟨h1, h2⟩
    exact h (by simp [h1, h2])

theorem splitNetloc_netloc {n z : List Nat}
    (hn : ∀ c ∈ n, isNetlocDelim c = false) (hz : z.head? = some 47) :
    splitNetloc (47 :: 47 :: (n ++ z)) = (n, z) := by
  cases z with
  | nil => simp at hz
  | cons a t =>
    simp at hz
    subst hz
    show (if (47 : Nat) = 47 ∧ (47 : Nat) = 47 then
        ((n ++ 47 :: t).takeWhile (fun c => !isNetlocDelim c),
          (n ++ 47 :: t).dropWhile (fun c => !isNetlocDelim c))
      else ([], 47 :: 47 :: (n ++ 47 :: t))) = (n, 47 :: t)
    rw [if_pos ⟨rfl, rfl⟩]
    rw [Prod.mk.injEq]
    constructor
    · rw [takeWhile_append_all _ _ _ (by intro c hc; simp [hn c hc])]
      rw [List.takeWhile_cons]
      simp [isNetlocDelim]
    · rw [dropWhile_append_all _ _ _ (by intro c hc; simp [hn c hc])]
      rw [List.dropWhile_cons]
      simp [isNetlocDelim]

theorem splitFirstOr_not_mem [DecidableEq α] (d : α) (l : List α) (h : d ∉ l) :
    splitFirstOr d l = (l, []) := by
  unfold splitFirstOr
  rw [splitAtFirst_of_not_mem d l h]

theorem splitFirstOr_append [DecidableEq α] (d : α) (a b : List α) (h : d ∉ a) :
    splitFirstOr d (a ++ d :: b) = (a, b) := by
  unfold splitFirstOr
  rw [splitAtFirst_append d a b h]

theorem urlsplitB_eq_of {u s' rest n' r2 r3 frag pa qu : List Nat}
    (h1 : removeUnsafe u = u)
    (h2 : splitScheme u = (s', rest))
    (h3 : splitNetloc rest = (n', r2))
    (h4 : bracketMismatch n' = false)
    (h5 : splitFirstOr 35 r2 = (r3, frag))
    (h6 : splitFirstOr 63 r3 = (pa, qu)) :
    urlsplitB u = some ⟨s', n', pa, qu, frag⟩ := by
  simp only [urlsplitB, h1, h2, h3, h4, h5, h6]
  rfl

/-- Re-parsing the reassembled URL recovers the components, for
components of the shape `normalize_url` produces. -/
theorem urlsplitB_urlunsplitB (s n p q : List Nat)
    (hs : s = [] ∨ ∃ c cs, s = c :: cs ∧ isAsciiAlphaB c = true ∧
        (∀ b ∈ s, isSchemeCharB b = true) ∧ s.map toLowerByte = s)
    (hn : ∀ c ∈ n, isNetlocDelim c = false ∧ isUnsafeUrlByte c = false)
    (hnb : bracketMismatch n = false)
    (hp : p = [47] ∨ ∃ c cs, p = 47 :: c :: cs ∧ c ≠ 47)
    (hpm : ∀ c ∈ p, c ≠ 63 ∧ c ≠ 35 ∧ isUnsafeUrlByte c = false)
    (hq : ∀ c ∈ q, isQueryOutByte c = true) :
    urlsplitB (urlunsplitB ⟨s, n, p, q, []⟩) = some ⟨s, n, p, q, []⟩ := by
  obtain ⟨t, hpt⟩ : ∃ t, p = 47 :: t := by
    rcases hp with h | ⟨c, cs, h, _⟩
    · exact ⟨[], h⟩
    · exact ⟨c :: cs, h⟩
  have hptake : p.take 2 ≠ [47, 47] := by
    rcases hp with h | ⟨c, cs, h, hc⟩
    · subst h; decide
    · subst h
      intro habs
      simp at habs
      exact hc habs
  -- the remainder after the authority
  set qpart := (if q = [] then ([] : List Nat) else 63 :: q) with hqp
  set z := p ++ qpart with hz
  have hzhead : z.head? = some 47 := by rw [hz, hpt]; simp
  have hsafe_q : ∀ c ∈ q, isUnsafeUrlByte c = false :=
    fun c hc => (isQueryOutByte_excl (hq c hc)).2.2.2
  have hsafe_z : ∀ c ∈ z, isUnsafeUrlByte c = false := by
    intro c hc
    rw [hz] at hc
    rcases List.mem_append.mp hc with h1 | h1
    · exact (hpm c h1).2.2
    · rw [hqp] at h1
      by_cases hq0 : q = []
      · simp [hq0] at h1
      · rw [if_neg hq0] at h1
        rcases List.mem_cons.mp h1 with h2 | h2
        · subst h2; decide
        · exact hsafe_q c h2
  have hz35 : (35 : Nat) ∉ z := by
    intro hc
    rw [hz] at hc
    rcases List.mem_append.mp hc with h1 | h1
    · exact (hpm 35 h1).2.1 rfl
    · rw [hqp] at h1
      by_cases hq0 : q = []
      · simp [hq0] at h1
      · rw [if_neg hq0] at h1
        rcases List.mem_cons.mp h1 with h2 | h2
        · exact absurd h2.symm (by decide)
        · exact (isQueryOutByte_excl (hq 35 h2)).2.2.1 rfl
  have hp63 : (63 : Nat) ∉ p := fun hc => (hpm 63 hc).1 rfl
  have hzfrag : splitFirstOr 35 z = (z, []) := splitFirstOr_not_mem 35 z hz35
  have hzquery : splitFirstOr 63 z = (p, q) := by
    by_cases hq0 : q = []
    · rw [hz, hqp, if_pos hq0, List.append_nil, hq0]
      exact splitFirstOr_not_mem 63 p hp63
    · rw [hz, hqp, if_neg hq0]
      exact splitFirstOr_append 63 p q hp63
  have hsafe_s : ∀ c ∈ s, isUnsafeUrlByte c = false := by
    rcases hs with h | ⟨c0, cs0, hcons, _, hall, _⟩
    · subst h; simp
    · exact fun c hc => (isSchemeCharB_excl (hall c hc)).2
  have hsafe_n : ∀ c ∈ n, isUnsafeUrlByte c = false := fun c hc => (hn c hc).2
  -- the body after the optional scheme
  set B := (if n = [] then z else 47 :: 47 :: (n ++ z)) with hB
  have hsafe_B : ∀ c ∈ B, isUnsafeUrlByte c = false := by
    intro c hc
    rw [hB] at hc
    by_cases hn0 : n = []
    · rw [if_pos hn0] at hc
      exact hsafe_z c hc
    · rw [if_neg hn0] at hc
      rcases List.mem_cons.mp hc with h1 | h1
      · subst h1; decide
      · rcases List.mem_cons.mp h1 with h2 | h2
        · subst h2; decide
        · rcases List.mem_append.mp h2 with h3 | h3
          · exact hsafe_n c h3
          · exact hsafe_z c h3
  have hBhead : B.head? = some 47 := by
    rw [hB]
    by_cases hn0 : n = []
    · rw [if_pos hn0]; exact hzhead
    · rw [if_neg hn0]; rfl
  have hBsplit : splitNetloc B = (if n = [] then ([], z) else (n, z)) := by
    rw [hB]
    by_cases hn0 : n = []
    · rw [if_pos hn0, if_pos hn0]
      refine splitNetloc_eq_self ?_
      rw [hz, hpt]
      rcases hp with h | ⟨c, cs, h, hc⟩
      · have ht : t = [] := by
          rw [hpt] at h; simpa using h
        subst ht
        rw [hqp]
        by_cases hq0 : q = []
        · simp [hq0]
        · rw [if_neg hq0]
          intro habs
          simp at habs
      · have ht : t = c :: cs := by
          rw [hpt] at h; simpa using h
        subst ht
        intro habs
        simp at habs
        exact hc habs
    · rw [if_neg hn0, if_neg hn0]
      exact splitNetloc_netloc (fun c hc => (hn c hc).1) hzhead
  -- assembled output
  have hout : urlunsplitB ⟨s, n, p, q, []⟩ = (if s = [] then B else s ++ 58 :: B) := by
    rw [urlunsplitB]
    simp only
    rw [hB, hz, hqp]
    have hinner : ¬(p ≠ [] ∧ p.head? ≠ some 47) := by
      rw [hpt]; simp
    by_cases hn0 : n = [] <;> by_cases hq0 : q = [] <;> by_cases hs0 : s = [] <;>
      simp [hn0, hq0, hs0, hptake, hinner, List.append_assoc]
  rw [hout]
  by_cases hs0 : s = []
  · rw [if_pos hs0]
    have h2 : splitScheme B = ([], B) := splitScheme_head47 hBhead
    by_cases hn0 : n = []
    · rw [if_pos hn0] at hBsplit
      rw [hs0, hn0]
      exact urlsplitB_eq_of (removeUnsafe_eq_self hsafe_B) h2 hBsplit rfl hzfrag hzquery
    · rw [if_neg hn0] at hBsplit
      rw [hs0]
      exact urlsplitB_eq_of (removeUnsafe_eq_self hsafe_B) h2 hBsplit hnb hzfrag hzquery
  · rw [if_neg hs0]
    rcases hs with h | ⟨c0, cs0, hcons, halpha, hall, hlow⟩
    · exact absurd h hs0
    have h2 : splitScheme (s ++ 58 :: B) = (s, B) :=
      splitScheme_valid hcons halpha hall hlow
    have h1 : removeUnsafe (s ++ 58 :: B) = s ++ 58 :: B := by
      refine removeUnsafe_eq_self ?_
      intro c hc
      rcases List.mem_append.mp hc with h3 | h3
      · exact hsafe_s c h3
      · rcases List.mem_cons.mp h3 with h4 | h4
        · subst h4; decide
        · exact hsafe_B c h4
    by_cases hn0 : n = []
    · rw [if_pos hn0] at hBsplit
      rw [hn0]
      exact urlsplitB_eq_of h1 h2 hBsplit rfl hzfrag hzquery
    · rw [if_neg hn0] at hBsplit
      exact urlsplitB_eq_of h1 h2 hBsplit hnb hzfrag hzquery

/-! ### Trim idempotence -/

theorem trimLeftP_idem (p : α → Bool) (l : List α) :
    trimLeftP p (trimLeftP p l) = trimLeftP p l := dropWhile_idem p l

theorem trimRightP_idem (p : α → Bool) (l : List α) :
    trimRightP p (trimRightP p l) = trimRightP p l := by
  unfold trimRightP
  rw [List.reverse_reverse, dropWhile_idem]

theorem trimRightP_decomp (p : α → Bool) (l : List α) :
    ∃ r, l = trimRightP p l ++ r ∧ ∀ b ∈ r, p b = true := by
  refine ⟨(l.reverse.takeWhile p).reverse, ?_, ?_⟩
  · unfold trimRightP
    conv_lhs => rw [← l.reverse_reverse]
    rw [← List.reverse_append]
    congr 1
    rw [List.takeWhile_append_dropWhile]
  · intro b hb
    rw [List.mem_reverse] at hb
    exact List.mem_takeWhile_imp hb

theorem head?_trimRightP (p : α → Bool) (l : List α) (h : trimRightP p l ≠ []) :
    (trimRightP p l).head? = l.head? := by
  obtain ⟨r, hr, _⟩ := trimRightP_decomp p l
  conv_rhs => rw [hr]
  cases e : trimRightP p l with
  | nil => exact absurd e h
  | cons a t => simp [e]

theorem trimBothP_idem (p : α → Bool) (l : List α) :
    trimBothP p (trimBothP p l) = trimBothP p l := by
  unfold trimBothP
  set y := trimRightP p (trimLeftP p l) with hy
  have h1 : trimLeftP p y = y := by
    by_cases hy0 : y = []
    · rw [hy0]; rfl
    · refine dropWhile_eq_self_of_head p y ?_
      intro c hc
      rw [hy, head?_trimRightP p _ (hy ▸ hy0)] at hc
      exact head?_dropWhile_false p l c hc
  rw [h1, hy, trimRightP_idem]

/-! ### Component constraints produced by a successful parse -/

theorem toLowerByte_idem (b : Nat) : toLowerByte (toLowerByte b) = toLowerByte b := by
  unfold toLowerByte
  by_cases h : isAsciiUpperB b = true
  · rw [if_pos h]
    rw [if_neg]
    rw [isAsciiUpperB_iff] at h ⊢
    omega
  · rw [if_neg h, if_neg h]

theorem toLowerByte_alpha {b : Nat} (h : isAsciiAlphaB b = true) :
    isAsciiAlphaB (toLowerByte b) = true := by
  unfold toLowerByte
  rcases isAsciiAlphaB_iff.mp h with h1 | h1
  · rw [if_pos (isAsciiUpperB_iff.mpr h1)]
    rw [isAsciiAlphaB_iff]
    right; omega
  · rw [if_neg]
    · exact h
    · rw [isAsciiUpperB_iff]; omega

theorem toLowerByte_schemeChar {b : Nat} (h : isSchemeCharB b = true) :
    isSchemeCharB (toLowerByte b) = true := by
  unfold toLowerByte
  by_cases hu : isAsciiUpperB b = true
  · rw [if_pos hu]
    rw [isAsciiUpperB_iff] at hu
    rw [isSchemeCharB_iff]
    right; left; omega
  · rw [if_neg hu]; exact h

theorem toLowerByte_lt256 {b : Nat} (h : b < 256) : toLowerByte b < 256 := by
  unfold toLowerByte
  by_cases hu : isAsciiUpperB b = true
  · rw [if_pos hu]
    rw [isAsciiUpperB_iff] at hu
    omega
  · rw [if_neg hu]; exact h

theorem splitScheme_cases (w : List Nat) :
    splitScheme w = ([], w) ∨
      ∃ pre post c cs, splitAtFirst 58 w = some (pre, post) ∧ pre = c :: cs ∧
        isAsciiAlphaB c = true ∧ (∀ b ∈ pre, isSchemeCharB b = true) ∧
        splitScheme w = (pre.map toLowerByte, post) := by
  cases e : splitAtFirst 58 w with
  | none => left; unfold splitScheme; rw [e]
  | some ab =>
    obtain ⟨pre, post⟩ := ab
    rcases pre with _ | ⟨c, cs⟩
    · left
      simp only [splitScheme, e]
    · by_cases hcond : (isAsciiAlphaB c && (c :: cs).all isSchemeCharB) = true
      · right
        refine ⟨c :: cs, post, c, cs, rfl, rfl, ?_, ?_, ?_⟩
        · rw [Bool.and_eq_true] at hcond; exact hcond.1
        · rw [Bool.and_eq_true, List.all_eq_true] at hcond
          exact fun b hb => hcond.2 b hb
        · simp only [splitScheme, e]
          rw [if_pos hcond]
      · left
        simp only [splitScheme, e]
        rw [if_neg hcond]

theorem splitNetloc_snd_mem {z : List Nat} {c : Nat}
    (hc : c ∈ (splitNetloc z).2) : c ∈ z := by
  rcases z with _ | ⟨a, _ | ⟨b, r⟩⟩
  · simp [splitNetloc] at hc
  · simp [splitNetloc] at hc
    simp [hc]
  · simp only [splitNetloc] at hc
    by_cases hab : a = 47 ∧ b = 47
    · rw [if_pos hab] at hc
      simp only at hc
      have := (List.dropWhile_sublist (l := r) (p := fun c => !isNetlocDelim c)).mem hc
      simp [this]
    · rw [if_neg hab] at hc
      simpa using hc

theorem splitNetloc_fst_mem {z : List Nat} {c : Nat}
    (hc : c ∈ (splitNetloc z).1) : c ∈ z ∧ isNetlocDelim c = false := by
  rcases z with _ | ⟨a, _ | ⟨b, r⟩⟩
  · simp [splitNetloc] at hc
  · simp [splitNetloc] at hc
  · simp only [splitNetloc] at hc
    by_cases hab : a = 47 ∧ b = 47
    · rw [if_pos hab] at hc
      simp only at hc
      constructor
      · have := (List.takeWhile_sublist (l := r) (p := fun c => !isNetlocDelim c)).mem hc
        simp [this]
      · have := List.mem_takeWhile_imp hc
        simpa using this
    · rw [if_neg hab] at hc
      simp at hc

theorem splitFirstOr_fst_mem [DecidableEq α] {d : α} {l : List α} {c : α}
    (hc : c ∈ (splitFirstOr d l).1) : c ∈ l ∧ c ≠ d := by
  unfold splitFirstOr at hc
  cases e : splitAtFirst d l with
  | none =>
    rw [e] at hc
    exact ⟨hc, fun hcd => splitAtFirst_none_not_mem e (hcd ▸ hc)⟩
  | some ab =>
    rw [e] at hc
    obtain ⟨h1, h2⟩ := splitAtFirst_some (a := ab.1) (b := ab.2) (by simpa using e)
    exact ⟨by rw [h1]; exact List.mem_append_left _ hc, fun hcd => h2 (hcd ▸ hc)⟩

theorem splitFirstOr_snd_mem [DecidableEq α] {d : α} {l : List α} {c : α}
    (hc : c ∈ (splitFirstOr d l).2) : c ∈ l := by
  unfold splitFirstOr at hc
  cases e : splitAtFirst d l with
  | none => rw [e] at hc; simp at hc
  | some ab =>
    rw [e] at hc
    obtain ⟨h1, _⟩ := splitAtFirst_some (a := ab.1) (b := ab.2) (by simpa using e)
    rw [h1]
    exact List.mem_append_right _ (by simp [hc])

/-- Constraints on the components of a successful `urlsplitB`. -/
theorem urlsplitB_props {u : List Nat} {sp : SplitResult}
    (hu : ∀ b ∈ u, b < 256) (h : urlsplitB u = some sp) :
    (sp.scheme = [] ∨ ∃ c cs, sp.scheme = c :: cs ∧ isAsciiAlphaB c = true ∧
        (∀ b ∈ sp.scheme, isSchemeCharB b = true) ∧ sp.scheme.map toLowerByte = sp.scheme) ∧
    (∀ c ∈ sp.netloc, isNetlocDelim c = false ∧ isUnsafeUrlByte c = false) ∧
    bracketMismatch sp.netloc = false ∧
    (∀ c ∈ sp.path, c ≠ 63 ∧ c ≠ 35 ∧ isUnsafeUrlByte c = false) ∧
    (∀ c ∈ sp.query, c < 256) ∧ (∀ c ∈ sp.path, c < 256) := by
  have hw256 : ∀ c ∈ removeUnsafe u, c < 256 := by
    intro c hc
    exact hu c (List.mem_of_mem_filter hc)
  have hwsafe : ∀ c ∈ removeUnsafe u, isUnsafeUrlByte c = false := by
    intro c hc
    have := List.of_mem_filter hc
    simpa using this
  simp only [urlsplitB] at h
  rcases splitScheme_cases (removeUnsafe u) with hsch |
    ⟨pre, post, c0, cs0, hsplit, hpre, halpha, hall, hsch⟩ <;>
    rw [hsch] at h <;>
    simp only at h <;>
    [skip;
     obtain ⟨hwdecomp, _⟩ := splitAtFirst_some hsplit]
  case inl =>
    by_cases hbr : bracketMismatch (splitNetloc (removeUnsafe u)).1 = true
    · rw [if_pos hbr] at h; exact absurd h (by simp)
    · rw [if_neg hbr] at h
      rw [Bool.not_eq_true] at hbr
      injection h with h
      subst h
      refine ⟨Or.inl rfl, ?_, hbr, ?_, ?_, ?_⟩
      · intro c hc
        obtain ⟨h1, h2⟩ := splitNetloc_fst_mem hc
        exact ⟨h2, hwsafe c h1⟩
      · intro c hc
        obtain ⟨h1, h63⟩ := splitFirstOr_fst_mem hc
        obtain ⟨h2, h35⟩ := splitFirstOr_fst_mem h1
        exact ⟨h63, h35, hwsafe c (splitNetloc_snd_mem h2)⟩
      · intro c hc
        have h1 := splitFirstOr_snd_mem hc
        obtain ⟨h2, _⟩ := splitFirstOr_fst_mem h1
        exact hw256 c (splitNetloc_snd_mem h2)
      · intro c hc
        obtain ⟨h1, _⟩ := splitFirstOr_fst_mem hc
        obtain ⟨h2, _⟩ := splitFirstOr_fst_mem h1
        exact hw256 c (splitNetloc_snd_mem h2)
  case inr =>
    have hpost256 : ∀ c ∈ post, c < 256 := by
      intro c hc
      refine hw256 c ?_
      rw [hwdecomp]
      exact List.mem_append_right _ (by simp [hc])
    have hpostsafe : ∀ c ∈ post, isUnsafeUrlByte c = false := by
      intro c hc
      refine hwsafe c ?_
      rw [hwdecomp]
      exact List.mem_append_right _ (by simp [hc])
    by_cases hbr : bracketMismatch (splitNetloc post).1 = true
    · rw [if_pos hbr] at h; exact absurd h (by simp)
    · rw [if_neg hbr] at h
      rw [Bool.not_eq_true] at hbr
      injection h with h
      subst h
      refine ⟨?_, ?_, hbr, ?_, ?_, ?_⟩
      · right
        refine ⟨toLowerByte c0, cs0.map toLowerByte, by rw [hpre]; rfl, ?_, ?_, ?_⟩
        · exact toLowerByte_alpha halpha
        · intro b hb
          rcases List.mem_map.mp hb with ⟨b0, hb0, hlow⟩
          subst hlow
          exact toLowerByte_schemeChar (hall b0 hb0)
        · rw [List.map_map]
          refine List.map_congr_left ?_
          intro a _
          simp [Function.comp, toLowerByte_idem]
      · intro c hc
        obtain ⟨h1, h2⟩ := splitNetloc_fst_mem hc
        exact ⟨h2, hpostsafe c h1⟩
      · intro c hc
        obtain ⟨h1, h63⟩ := splitFirstOr_fst_mem hc
        obtain ⟨h2, h35⟩ := splitFirstOr_fst_mem h1
        exact ⟨h63, h35, hpostsafe c (splitNetloc_snd_mem h2)⟩
      · intro c hc
        have h1 := splitFirstOr_snd_mem hc
        obtain ⟨h2, _⟩ := splitFirstOr_fst_mem h1
        exact hpost256 c (splitNetloc_snd_mem h2)
      · intro c hc
        obtain ⟨h1, _⟩ := splitFirstOr_fst_mem hc
        obtain ⟨h2, _⟩ := splitFirstOr_fst_mem h1
        exact hpost256 c (splitNetloc_snd_mem h2)

theorem hexVal_lt16 {b : Nat} (h : isHexDigitB b = true) : hexVal b < 16 := by
  rcases isHexDigitB_iff.mp h with h1 | h1 | h1
  · have hd : isAsciiDigitB b = true := isAsciiDigitB_iff.mpr h1
    simp only [hexVal, hd, if_true]
    omega
  · have hd : isAsciiDigitB b = false := by simp [isAsciiDigitB]; omega
    have h65 : (65 ≤ b && b ≤ 70) = true := by simp; omega
    simp only [hexVal, hd, h65]
    simp only [if_true, Bool.false_eq_true, if_false]
    omega
  · have hd : isAsciiDigitB b = false := by simp [isAsciiDigitB]; omega
    have h65 : (65 ≤ b && b ≤ 70) = false := by simp; omega
    simp only [hexVal, hd, h65]
    simp only [Bool.false_eq_true, if_false]
    omega

theorem unquoteB_lt256 {l : List Nat} (hl : ∀ b ∈ l, b < 256) :
    ∀ b ∈ unquoteB l, b < 256 := by
  induction l using unquoteB.induct with
  | case1 c a b rest hhex ih =>
    rw [unquoteB, if_pos hhex]
    intro x hx
    rcases List.mem_cons.mp hx with h1 | h1
    · obtain ⟨_, ha, hb⟩ := hhex
      have hva : hexVal a < 16 := hexVal_lt16 ha
      have hvb : hexVal b < 16 := hexVal_lt16 hb
      omega
    · exact ih (fun b hb => hl b (by simp [hb])) x h1
  | case2 c a b rest hhex ih =>
    rw [unquoteB, if_neg hhex]
    intro x hx
    rcases List.mem_cons.mp hx with h1 | h1
    · subst h1; exact hl x (by simp)
    · exact ih (fun b hb => hl b (by simp at hb ⊢; tauto)) x h1
  | case3 c rest hshape ih =>
    rcases rest with _ | ⟨a, _ | ⟨b, t⟩⟩
    · intro x hx
      simp [unquoteB] at hx
      subst hx
      exact hl x (by simp)
    · intro x hx
      simp [unquoteB] at hx
      rcases hx with h1 | h1 <;> subst h1 <;> exact hl x (by simp)
    · exact absurd rfl (hshape a b t)
  | case4 => intro x hx; simp [unquoteB] at hx

theorem unquotePlusB_lt256 {l : List Nat} (hl : ∀ b ∈ l, b < 256) :
    ∀ b ∈ unquotePlusB l, b < 256 := by
  refine unquoteB_lt256 ?_
  intro b hb
  rcases List.mem_map.mp hb with ⟨b0, hb0, hmap⟩
  by_cases h43 : b0 = 43
  · subst h43
    simp at hmap
    omega
  · rw [if_neg h43] at hmap
    subst hmap
    exact hl b0 hb0

theorem parse_qsl_lt256 {q : List Nat} (hq : ∀ b ∈ q, b < 256) :
    ∀ kv ∈ parse_qsl q, (∀ b ∈ kv.1, b < 256) ∧ (∀ b ∈ kv.2, b < 256) := by
  intro kv hkv
  unfold parse_qsl at hkv
  rcases List.mem_filterMap.mp hkv with ⟨nv, hnv, hsome⟩
  by_cases hnil : nv = []
  · rw [if_pos hnil] at hsome; exact absurd hsome (by simp)
  · rw [if_neg hnil] at hsome
    have hnvmem : ∀ b ∈ nv, b < 256 := fun b hb => hq b (mem_splitOn_mem hnv hb)
    injection hsome with hsome
    subst hsome
    constructor
    · refine unquotePlusB_lt256 ?_
      intro b hb
      exact hnvmem b (splitFirstOr_fst_mem hb).1
    · refine unquotePlusB_lt256 ?_
      intro b hb
      exact hnvmem b (splitFirstOr_snd_mem hb)

/-! ### Stability of the parse-failure branch -/

/-- Whitespace bytes that survive the tab/CR/LF removal of `urlsplit`
(space, FF, VT). -/
def isWs2 (b : Nat) : Bool := b = 32 || b = 12 || b = 11

theorem isWs2_iff {b : Nat} : isWs2 b = true ↔ b = 32 ∨ b = 12 ∨ b = 11 := by
  simp [isWs2]
  tauto

theorem isPyWsByte_split (b : Nat) :
    isPyWsByte b = (isWs2 b || isUnsafeUrlByte b) := by
  by_cases h : isPyWsByte b = true
  · rw [h]
    rcases isPyWsByte_iff.mp h with h1 | h1 | h1 | h1 | h1 | h1 <;>
      subst h1 <;> decide
  · rw [Bool.not_eq_true] at h
    rw [h]
    symm
    rw [Bool.eq_false_iff]
    intro habs
    rcases Bool.or_eq_true_iff.mp habs with h1 | h1
    · rcases isWs2_iff.mp h1 with h2 | h2 | h2 <;> subst h2 <;> simp [isPyWsByte] at h
    · rcases isUnsafeUrlByte_iff.mp h1 with h2 | h2 | h2 <;> subst h2 <;> simp [isPyWsByte] at h

theorem removeUnsafe_dropWhile (l : List Nat) :
    removeUnsafe (l.dropWhile isPyWsByte) = (removeUnsafe l).dropWhile isWs2 := by
  induction l with
  | nil => rfl
  | cons c cs ih =>
    by_cases hws : isPyWsByte c = true
    · rw [List.dropWhile_cons, if_pos hws]
      rw [isPyWsByte_split] at hws
      rcases Bool.or_eq_true_iff.mp hws with h1 | h1
      · have hP : (!isUnsafeUrlByte c) = true := by
          rcases isWs2_iff.mp h1 with h2 | h2 | h2 <;> subst h2 <;> decide
        unfold removeUnsafe
        rw [List.filter_cons, if_pos hP]
        rw [List.dropWhile_cons, if_pos h1]
        exact ih
      · unfold removeUnsafe
        rw [List.filter_cons, if_neg (by simp [h1])]
        exact ih
    · have hnu : (!isUnsafeUrlByte c) = true := by
        rw [isPyWsByte_split] at hws
        simp only [Bool.or_eq_true] at hws
        push_neg at hws
        simp [hws.2]
      have hnw2 : isWs2 c = false := by
        rw [isPyWsByte_split] at hws
        simp only [Bool.or_eq_true] at hws
        push_neg at hws
        simpa using hws.1
      rw [List.dropWhile_cons, if_neg (by simp [hws])]
      unfold removeUnsafe
      rw [List.filter_cons, if_pos hnu]
      rw [List.dropWhile_cons, if_neg (by simp [hnw2])]

theorem removeUnsafe_reverse (l : List Nat) :
    removeUnsafe l.reverse = (removeUnsafe l).reverse := by
  unfold removeUnsafe
  rw [List.filter_reverse]

theorem removeUnsafe_pyStrip (u : List Nat) :
    removeUnsafe (pyStripBytes u) = trimBothP isWs2 (removeUnsafe u) := by
  unfold pyStripBytes trimBothP trimRightP trimLeftP
  rw [removeUnsafe_reverse, removeUnsafe_dropWhile, removeUnsafe_reverse,
    removeUnsafe_dropWhile]

/-- The authority of a parse, as used by the bracket validity check. -/
def netlocOfW (w : List Nat) : List Nat := (splitNetloc (splitScheme w).2).1

theorem urlsplitB_none_iff (u : List Nat) :
    urlsplitB u = none ↔ bracketMismatch (netlocOfW (removeUnsafe u)) = true := by
  simp only [urlsplitB, netlocOfW]
  by_cases h : bracketMismatch (splitNetloc (splitScheme (removeUnsafe u)).2).1 = true
  · rw [if_pos h]
    simp [h]
  · rw [if_neg h]
    simp only [Bool.not_eq_true] at h
    simp [h]

theorem splitScheme_head_nonalpha {w : List Nat} {c : Nat}
    (hh : w.head? = some c) (h58 : c ≠ 58) (halpha : isAsciiAlphaB c = false) :
    splitScheme w = ([], w) := by
  cases w with
  | nil => simp at hh
  | cons a t =>
    simp at hh
    subst hh
    unfold splitScheme
    unfold splitAtFirst
    rw [if_neg h58]
    cases e : splitAtFirst 58 t with
    | none => simp
    | some ab => simp [halpha]

theorem netlocOfW_head_ws {w : List Nat} {c : Nat}
    (hh : w.head? = some c) (hws : isPyWsByte c = true) :
    netlocOfW w = [] := by
  have h58 : c ≠ 58 := by
    rcases isPyWsByte_iff.mp hws with h | h | h | h | h | h <;> omega
  have h47 : c ≠ 47 := by
    rcases isPyWsByte_iff.mp hws with h | h | h | h | h | h <;> omega
  have halpha : isAsciiAlphaB c = false := by
    rw [Bool.eq_false_iff]
    intro habs
    rcases isAsciiAlphaB_iff.mp habs with h | h <;>
      rcases isPyWsByte_iff.mp hws with h1 | h1 | h1 | h1 | h1 | h1 <;> omega
  unfold netlocOfW
  rw [splitScheme_head_nonalpha hh h58 halpha]
  cases w with
  | nil => simp at hh
  | cons a t =>
    simp at hh
    subst hh
    rw [splitNetloc_eq_self]
    intro habs
    cases t with
    | nil => simp at habs
    | cons b r =>
      simp at habs
      exact h47 habs.1

theorem splitScheme_append {A R : List Nat} (hR : (58 : Nat) ∉ R) :
    splitScheme (A ++ R) = ((splitScheme A).1, (splitScheme A).2 ++ R) := by
  cases e : splitAtFirst 58 A with
  | none =>
    have e2 : splitAtFirst 58 (A ++ R) = none := by
      refine splitAtFirst_of_not_mem _ _ ?_
      intro hm
      rcases List.mem_append.mp hm with h1 | h1
      · exact splitAtFirst_none_not_mem e h1
      · exact hR h1
    simp only [splitScheme, e, e2]
  | some ab =>
    obtain ⟨x, y⟩ := ab
    have e2 : splitAtFirst 58 (A ++ R) = some (x, y ++ R) :=
      splitAtFirst_append_of_some R e
    rcases x with _ | ⟨c, cs⟩
    · simp only [splitScheme, e, e2]
    · by_cases hcond : (isAsciiAlphaB c && (c :: cs).all isSchemeCharB) = true
      · simp only [splitScheme, e, e2, if_pos hcond]
      · simp only [splitScheme, e, e2, if_neg hcond]

theorem contains_append_of_not_mem {l r : List Nat} {x : Nat} (hx : x ∉ r) :
    (l ++ r).contains x = l.contains x := by
  by_cases hm : x ∈ l
  · have h1 : (l ++ r).contains x = true := by
      rw [List.contains_eq_any_beq, List.any_eq_true]
      exact ⟨x, List.mem_append_left _ hm, by simp⟩
    have h2 : l.contains x = true := by
      rw [List.contains_eq_any_beq, List.any_eq_true]
      exact ⟨x, hm, by simp⟩
    rw [h1, h2]
  · have h1 : (l ++ r).contains x = false := by
      rw [List.contains_eq_any_beq, Bool.eq_false_iff]
      intro habs
      rw [List.any_eq_true] at habs
      obtain ⟨y, hy, hbeq⟩ := habs
      simp at hbeq
      subst hbeq
      rcases List.mem_append.mp hy with h | h
      · exact hm h
      · exact hx h
    have h2 : l.contains x = false := by
      rw [List.contains_eq_any_beq, Bool.eq_false_iff]
      intro habs
      rw [List.any_eq_true] at habs
      obtain ⟨y, hy, hbeq⟩ := habs
      simp at hbeq
      subst hbeq
      exact hm hy
    rw [h1, h2]

theorem bracketMismatch_append_ws {t R : List Nat}
    (hR : ∀ b ∈ R, isWs2 b = true)
    (h : bracketMismatch (t ++ R) = true) : bracketMismatch t = true := by
  have h91 : (91 : Nat) ∉ R := by
    intro hm
    have := isWs2_iff.mp (hR 91 hm)
    omega
  have h93 : (93 : Nat) ∉ R := by
    intro hm
    have := isWs2_iff.mp (hR 93 hm)
    omega
  unfold bracketMismatch at h ⊢
  rw [contains_append_of_not_mem h91, contains_append_of_not_mem h93] at h
  exact h

theorem netloc_mismatch_strip {restA R : List Nat}
    (hR : ∀ b ∈ R, isWs2 b = true)
    (h : bracketMismatch (splitNetloc (restA ++ R)).1 = true) :
    bracketMismatch (splitNetloc restA).1 = true := by
  have hR47 : ∀ b ∈ R, b ≠ 47 := by
    intro b hb
    have := isWs2_iff.mp (hR b hb)
    omega
  rcases restA with _ | ⟨a, _ | ⟨b, t⟩⟩
  · -- restA empty: the appended tail is all whitespace, no authority
    exfalso
    rcases R with _ | ⟨r0, R'⟩
    · simp [splitNetloc, bracketMismatch] at h
    · rw [List.nil_append] at h
      rw [splitNetloc_eq_self] at h
      · simp [bracketMismatch] at h
      · intro habs
        rcases R' with _ | ⟨r1, R''⟩
        · simp at habs
        · simp at habs
          exact hR47 r0 (by simp) habs.1
  · -- restA one byte
    exfalso
    by_cases ha : a = 47
    · rcases R with _ | ⟨r0, R'⟩
      · simp [splitNetloc, bracketMismatch] at h
      · rw [List.singleton_append] at h
        rw [splitNetloc_eq_self] at h
        · simp [bracketMismatch] at h
        · intro habs
          simp at habs
          exact hR47 r0 (by simp) habs.2
    · rw [List.singleton_append] at h
      rw [splitNetloc_eq_self] at h
      · simp [bracketMismatch] at h
      · intro habs
        cases R with
        | nil => simp at habs
        | cons r0 R' =>
          simp at habs
          exact ha habs.1
  · by_cases hab : a = 47 ∧ b = 47
    · obtain ⟨ha, hb⟩ := hab
      subst ha; subst hb
      have e1 : splitNetloc (47 :: 47 :: (t ++ R)) =
          ((t ++ R).takeWhile (fun c => !isNetlocDelim c),
            (t ++ R).dropWhile (fun c => !isNetlocDelim c)) := by
        simp [splitNetloc]
      have e2 : splitNetloc (47 :: 47 :: t) =
          (t.takeWhile (fun c => !isNetlocDelim c),
            t.dropWhile (fun c => !isNetlocDelim c)) := by
        simp [splitNetloc]
      rw [List.cons_append, List.cons_append] at h
      rw [e1] at h
      rw [e2]
      simp only at h ⊢
      by_cases hstop : t.dropWhile (fun c => !isNetlocDelim c) = []
      · have hall : ∀ c ∈ t, (!isNetlocDelim c) = true :=
          fun c hc => List.dropWhile_eq_nil_iff.mp hstop c hc
        have hallR : ∀ c ∈ R, (!isNetlocDelim c) = true := by
          intro c hc
          have := isWs2_iff.mp (hR c hc)
          rcases this with h1 | h1 | h1 <;> subst h1 <;> decide
        rw [takeWhile_append_all _ _ _ hall] at h
        rw [List.takeWhile_eq_self_iff.mpr hallR] at h
        rw [List.takeWhile_eq_self_iff.mpr hall]
        exact bracketMismatch_append_ws hR h
      · rw [takeWhile_append_stop _ _ _ hstop] at h
        exact h
    · rw [List.cons_append, List.cons_append] at h
      rw [splitNetloc_eq_self (by simpa using fun h1 h2 => hab ⟨h1, h2⟩)] at h
      rw [splitNetloc_eq_self (by simpa using fun h1 h2 => hab ⟨h1, h2⟩)]
      exfalso
      simp [bracketMismatch] at h

theorem urlsplitB_none_strip {u : List Nat} (h : urlsplitB u = none) :
    urlsplitB (pyStripBytes u) = none := by
  rw [urlsplitB_none_iff] at h ⊢
  rw [removeUnsafe_pyStrip]
  have hleft : trimLeftP isWs2 (removeUnsafe u) = removeUnsafe u := by
    refine dropWhile_eq_self_of_head _ _ ?_
    intro c hc
    rw [Bool.eq_false_iff]
    intro hws2
    have hpws : isPyWsByte c = true := by
      rcases isWs2_iff.mp hws2 with h1 | h1 | h1 <;> subst h1 <;> decide
    rw [netlocOfW_head_ws hc hpws] at h
    simp [bracketMismatch] at h
  unfold trimBothP
  rw [hleft]
  obtain ⟨R, hdecomp, hRws⟩ := trimRightP_decomp isWs2 (removeUnsafe u)
  have h58R : (58 : Nat) ∉ R := by
    intro hm
    have := isWs2_iff.mp (hRws 58 hm)
    omega
  rw [hdecomp] at h
  unfold netlocOfW at h ⊢
  rw [splitScheme_append h58R] at h
  exact netloc_mismatch_strip hRws h

theorem urlunsplitB_ne_nil {s n p q : List Nat} (hp : p ≠ []) :
    urlunsplitB ⟨s, n, p, q, []⟩ ≠ [] := by
  unfold urlunsplitB
  simp only
  by_cases h1 : (n ≠ [] ∨ p.take 2 = [47, 47]) <;>
    by_cases h2 : s ≠ [] <;> by_cases h3 : q ≠ [] <;>
    simp [h1, h2, h3, hp]

/-- C2: for every URL string (modelled as its UTF-8 byte sequence, so
every byte is below 256), the URL normalizer is idempotent:
`normalize(normalize(u)) = normalize(u)`. -/
theorem normalize_url_idem (u : List Nat) (hu : ∀ b ∈ u, b < 256) :
    normalize_url (normalize_url u) = normalize_url u := by
  by_cases hu0 : u = []
  · subst hu0; decide
  · cases e : urlsplitB u with
    | none =>
      have h1 : normalize_url u = pyStripBytes u := by
        unfold normalize_url
        rw [if_neg hu0, e]
      rw [h1]
      by_cases hs0 : pyStripBytes u = []
      · rw [hs0]; decide
      · have h2 := urlsplitB_none_strip e
        unfold normalize_url
        rw [if_neg hs0, h2]
        exact trimBothP_idem _ _
    | some sp =>
      obtain ⟨hps, hpn, hpb, hpp, hpq, hpp256⟩ := urlsplitB_props hu e
      have h1 : normalize_url u = urlunsplitB ⟨sp.scheme, sp.netloc,
          stripTrailingSlash (collapsePath sp.path),
          urlencodeB ((parse_qsl sp.query).filter (fun kv => !isTrackingKey kv.1)), []⟩ := by
        unfold normalize_url
        rw [if_neg hu0, e]
      rw [h1]
      have hp'eq : stripTrailingSlash (collapsePath sp.path) = collapsePath sp.path :=
        stripTrailingSlash_collapsePath _
      have hkeptwf : ∀ kv ∈ (parse_qsl sp.query).filter (fun kv => !isTrackingKey kv.1),
          (∀ b ∈ kv.1, b < 256) ∧ (∀ b ∈ kv.2, b < 256) := by
        intro kv hkv
        exact parse_qsl_lt256 hpq kv (List.mem_of_mem_filter hkv)
      have hp'shape : stripTrailingSlash (collapsePath sp.path) = [47] ∨
          ∃ c cs, stripTrailingSlash (collapsePath sp.path) = 47 :: c :: cs ∧ c ≠ 47 := by
        rw [hp'eq]
        exact collapsePath_head_shape _
      have hp'mem : ∀ c ∈ stripTrailingSlash (collapsePath sp.path),
          c ≠ 63 ∧ c ≠ 35 ∧ isUnsafeUrlByte c = false := by
        intro c hc
        rw [hp'eq] at hc
        rcases mem_collapsePath hc with h47 | hmem
        · subst h47
          refine ⟨by omega, by omega, by decide⟩
        · exact hpp c hmem
      have hq'mem : ∀ c ∈ urlencodeB ((parse_qsl sp.query).filter
          (fun kv => !isTrackingKey kv.1)), isQueryOutByte c = true :=
        fun c hc => mem_urlencodeB hkeptwf hc
      have hresplit := urlsplitB_urlunsplitB sp.scheme sp.netloc
        (stripTrailingSlash (collapsePath sp.path))
        (urlencodeB ((parse_qsl sp.query).filter (fun kv => !isTrackingKey kv.1)))
        hps hpn hpb hp'shape hp'mem hq'mem
      have hne : urlunsplitB ⟨sp.scheme, sp.netloc,
          stripTrailingSlash (collapsePath sp.path),
          urlencodeB ((parse_qsl sp.query).filter (fun kv => !isTrackingKey kv.1)), []⟩ ≠ [] := by
        refine urlunsplitB_ne_nil ?_
        rcases hp'shape with h | ⟨c, cs, h, _⟩ <;> rw [h] <;> simp
      unfold normalize_url
      rw [if_neg hne, hresplit]
      refine congrArg urlunsplitB ?_
      rw [SplitResult.mk.injEq]
      refine ⟨rfl, rfl, ?_, ?_, rfl⟩
      · rw [hp'eq, stripTrailingSlash_collapsePath, collapsePath_idem]
      · rw [parse_qsl_urlencodeB hkeptwf]
        congr 1
        rw [List.filter_eq_self]
        intro kv hkv
        exact (List.mem_filter.mp hkv).2

/-- Witness for C2 at a concrete URL. -/
theorem normalize_url_idem_witness :
    (∀ b ∈ asciiBytes "https://a.com/x/?utm_source=y&a=1", b < 256) ∧
    normalize_url (normalize_url (asciiBytes "https://a.com/x/?utm_source=y&a=1")) =
      normalize_url (asciiBytes "https://a.com/x/?utm_source=y&a=1") :=
  ⟨by decide, normalize_url_idem _ (by decide)⟩

/-! ### Summarizer (src/app/summarize.py)

Text is modelled as `List Char` (Python code-point semantics of `len`
and slicing).  The numeric sentence scoring (`_compute_tf_idf`,
`_score_sentence_advanced`, combined at lines 187-192) runs on IEEE-754
floats with `math.log`; it is modelled as a parameter producing the
list of combined scores for the filtered sentences, ranging over all
rational-valued scorings — every finite-float scoring is one of them,
so theorems quantified over the parameter hold for the concrete one. -/

/-- Python whitespace characters (ASCII range of `\s`). -/
def isPyWsChar (c : Char) : Bool := isPyWsByte c.toNat

/-- Python `str.strip()` on a character string. -/
def pyStripChars (l : List Char) : List Char := trimBothP isPyWsChar l

/-- One maximal whitespace run becomes one space
(`re.sub(r"\s+", " ", text)`); `inWs` records whether the previous
character was part of a whitespace run. -/
def collapseWsAux (inWs : Bool) : List Char → List Char
  | [] => []
  | c :: cs =>
    if isPyWsChar c then
      if inWs then collapseWsAux true cs else ' ' :: collapseWsAux true cs
    else c :: collapseWsAux false cs

def collapseWs (l : List Char) : List Char := collapseWsAux false l

/-- `_normalize_whitespace` (src/app/summarize.py lines 48-50). -/
def normalize_whitespace (text : List Char) : List Char :=
  pyStripChars (collapseWs text)

/-- Sentence-ending punctuation of `SENTENCE_END`. -/
def isSentEndChar (c : Char) : Bool := c = '.' || c = '!' || c = '?'

/-- Split on matches of `(?<=[.!?])\s+` (src/app/summarize.py line 39):
a maximal whitespace run whose preceding character is `.`, `!` or `?`
separates two parts.  `prev` tracks the preceding character and
`inSep` whether the scan is inside a separator run.  The head of the
result is the rest of the current part. -/
def rawSplitAux (prev : Char) (inSep : Bool) : List Char → List (List Char)
  | [] => [[]]
  | c :: cs =>
    if inSep then
      if isPyWsChar c then rawSplitAux c true cs
      else (rawSplitAux c false cs).modifyHead (fun p => c :: p)
    else
      if isPyWsChar c ∧ isSentEndChar prev then [] :: rawSplitAux c true cs
      else (rawSplitAux c false cs).modifyHead (fun p => c :: p)

/-- `ABBREVIATIONS` (src/app/summarize.py lines 42-46). -/
def ABBREVIATIONS : List (List Char) :=
  ["т.д.", "т.п.", "г.", "ул.", "пр.", "стр.", "рис.", "им.", "акад.",
   "Mr.", "Ms.", "Dr.", "Inc.", "Ltd.", "e.g.", "i.e.", "p.m.", "a.m.",
   "т.е.", "т.к.", "и т.д.", "и т.п.", "др.", "проф.", "доц.", "канд."].map String.data

/-- The merge guard of `_split_sentences_ru` line 61: the previous
sentence ends with an abbreviation, with all trailing dots stripped
(`abbr.rstrip('.')`) or as written. -/
def endsWithAbbr (last : List Char) : Bool :=
  ABBREVIATIONS.any fun ab =>
    (trimRightP (fun c => c = '.') ab).isSuffixOf last || ab.isSuffixOf last

/-- One step of the loop of `_split_sentences_ru` (lines 55-64):
skip empty stripped parts; merge into the previous sentence when it
ends with an abbreviation, else append. -/
def buildStep (out : List (List Char)) (p : List Char) : List (List Char) :=
  let pc := pyStripChars p
  if pc = [] then out
  else if out ≠ [] ∧ endsWithAbbr (out.getLast?.getD []) = true then
    out.dropLast ++ [pyStripChars (out.getLast?.getD [] ++ ' ' :: pc)]
  else out ++ [pc]

/-- `_split_sentences_ru` (src/app/summarize.py lines 52-65). -/
def split_sentences_ru (text : List Char) : List (List Char) :=
  (rawSplitAux ' ' false text).foldl buildStep []

/-- `str.lower` on the character ranges the boilerplate patterns need
(ASCII letters and Cyrillic); other characters are unchanged. -/
def pyLowerChar (c : Char) : Char :=
  let n := c.toNat
  if 65 ≤ n ∧ n ≤ 90 then Char.ofNat (n + 32)
  else if 1040 ≤ n ∧ n ≤ 1071 then Char.ofNat (n + 32)
  else if n = 1025 then Char.ofNat 1105
  else c

/-- `boilerplate_patterns` of `_is_boilerplate` (lines 215-220); every
regex in the list is a literal string (the one escape, `t\.me/`, is
the literal `t.me/`), so matching is substring search. -/
def BOILERPLATE_PATTERNS : List (List Char) :=
  ["подробнее", "читать дальше", "читать далее", "подписывайтесь",
   "источник:", "©", "телеграм", "t.me/", "twitter", "facebook",
   "фото:", "видео:", "смотрите также", "рассказали", "сообщили",
   "по материалам", "как пишет", "как сообщили"].map String.data

/-- Substring test (`pattern in text` with contiguous matching, the
semantics of `re.search` on a literal pattern). -/
def isSubstring (p : List Char) : List Char → Bool
  | [] => p.isEmpty
  | c :: cs => p.isPrefixOf (c :: cs) || isSubstring p cs

/-- `_is_boilerplate` (src/app/summarize.py lines 212-221). -/
def is_boilerplate (s : List Char) : Bool :=
  BOILERPLATE_PATTERNS.any fun p => isSubstring p (s.map pyLowerChar)

/-- Sentence scoring parameter: given the filtered `(index, sentence)`
pairs and the total sentence count, the combined scores (lines
182-192 of src/app/summarize.py, float arithmetic). -/
def ScoreFn : Type := List (Nat × List Char) → Nat → List ℚ

/-- A concrete scoring (used for witnesses): every sentence scores 0. -/
def zeroScores : ScoreFn := fun filtered _ => filtered.map (fun _ => 0)

/-- Stable insertion into a descending-sorted list: `a` goes before
the first element not strictly before it. -/
def insertDesc (le : α → α → Bool) (a : α) : List α → List α
  | [] => [a]
  | b :: bs => if le b a && !(le a b) then b :: insertDesc le a bs else a :: b :: bs

/-- Stable sort (model of Python `list.sort(..., reverse=True)`, which
is stable; a stable sort by a total preorder is unique, so this
insertion sort produces the same list). -/
def sortStable (le : α → α → Bool) : List α → List α
  | [] => []
  | x :: xs => insertDesc le x (sortStable le xs)

/-- `" ".join(...)`. -/
def joinSpace (ls : List (List Char)) : List Char := List.intercalate [' '] ls

/-- The sentence filter (src/app/summarize.py lines 163-168): keep
stripped sentences of length at least 30 that are not boilerplate,
with their original index. -/
def sentenceFilter (sentences : List (List Char)) : List (Nat × List Char) :=
  sentences.enum.filterMap fun is =>
    let sc := pyStripChars is.2
    if 30 ≤ sc.length ∧ is_boilerplate sc = false then some (is.1, sc) else none

/-- Scoring, stable descending sort, and top selection (lines
186-196): pair each filtered sentence with its combined score, sort by
score descending (stable, as Python `sort` with `reverse=True`), take
the top `max_sentences`. -/
def topSelected (scoreFn : ScoreFn) (filtered : List (Nat × List Char))
    (total max_sentences : Nat) : List (List Char) :=
  ((sortStable (fun a b => b.1 ≤ a.1)
      ((scoreFn filtered total).zip (filtered.map (fun x => x.2)))).take
    max_sentences).map (fun x => x.2)

/-- `smart_extract_summary` (src/app/summarize.py lines 149-210). -/
def smart_extract_summary (scoreFn : ScoreFn) (text : List Char)
    (max_sentences : Nat) : List Char :=
  if text = [] then []
  else
    let cleaned := normalize_whitespace text
    let sentences := split_sentences_ru cleaned
    if sentences = [] then
      cleaned.take 400 ++ (if 400 < cleaned.length then ['…'] else [])
    else
      let filtered := sentenceFilter sentences
      if filtered = [] then
        let result := joinSpace (sentences.take max_sentences)
        result.take 500 ++ (if 500 < result.length then ['…'] else [])
      else if filtered.length ≤ max_sentences then
        let result := joinSpace (filtered.map (fun x => x.2))
        result.take 600 ++ (if 600 < result.length then ['…'] else [])
      else
        let selected := topSelected scoreFn filtered sentences.length max_sentences
        let final_sentences := sentences.filter (fun s => selected.contains s)
        let result := joinSpace final_sentences
        if 600 < result.length then trimRightP isPyWsChar (result.take 600) ++ ['…']
        else result

/-- `summarize` (src/app/summarize.py lines 223-225). -/
def summarize (scoreFn : ScoreFn) (text : List Char) : List Char :=
  smart_extract_summary scoreFn text 3

example : summarize zeroScores [] = [] := rfl
example : summarize zeroScores "Follow our twitter for updates and breaking news. The government announced a new economic policy today.".data = "The government announced a new economic policy today.".data := by decide

/-! ### Branch projections of the summarizer, for stating properties -/

/-- The sentence list the summarizer works on. -/
def summarySentences (text : List Char) : List (List Char) :=
  split_sentences_ru (normalize_whitespace text)

/-- The selected sentences re-emitted in original document order
(lines 198-202): the document sentence list filtered by membership in
the selection. -/
def summaryFinal (scoreFn : ScoreFn) (text : List Char) (maxS : Nat) : List (List Char) :=
  (summarySentences text).filter fun s =>
    (topSelected scoreFn (sentenceFilter (summarySentences text))
      (summarySentences text).length maxS).contains s

/-- The pre-truncation result of whichever branch of
`smart_extract_summary` runs. -/
def summaryRaw (scoreFn : ScoreFn) (text : List Char) (maxS : Nat) : List Char :=
  if text = [] then []
  else if summarySentences text = [] then normalize_whitespace text
  else if sentenceFilter (summarySentences text) = [] then
    joinSpace ((summarySentences text).take maxS)
  else if (sentenceFilter (summarySentences text)).length ≤ maxS then
    joinSpace ((sentenceFilter (summarySentences text)).map (fun x => x.2))
  else joinSpace (summaryFinal scoreFn text maxS)

/-- The truncation limit of whichever branch runs (400, 500 or 600). -/
def summaryLimit (text : List Char) : Nat :=
  if text = [] then 600
  else if summarySentences text = [] then 400
  else if sentenceFilter (summarySentences text) = [] then 500
  else 600

theorem trimRightP_length_le (p : α → Bool) (l : List α) :
    (trimRightP p l).length ≤ l.length := by
  obtain ⟨r, hr, _⟩ := trimRightP_decomp p l
  conv_rhs => rw [hr]
  simp

/-- C3: the summarizer output never exceeds 600 characters plus a
one-character ellipsis marker; the branch result is returned verbatim
when it is within the branch limit (no ellipsis appended), and when it
is over the limit the output is truncated and ends with the ellipsis
marker. -/
theorem summary_length_and_ellipsis (scoreFn : ScoreFn) (text : List Char) (maxS : Nat) :
    (smart_extract_summary scoreFn text maxS).length ≤ 601 ∧
    ((summaryRaw scoreFn text maxS).length ≤ summaryLimit text →
      smart_extract_summary scoreFn text maxS = summaryRaw scoreFn text maxS) ∧
    (summaryLimit text < (summaryRaw scoreFn text maxS).length →
      (smart_extract_summary scoreFn text maxS).length ≤ summaryLimit text + 1 ∧
      (smart_extract_summary scoreFn text maxS).getLast? = some '…') := by
  have key : ∀ (X : List Char) (L : Nat),
      (X.take L ++ (if L < X.length then ['…'] else [])).length ≤ L + 1 ∧
      (X.length ≤ L → X.take L ++ (if L < X.length then ['…'] else []) = X) ∧
      (L < X.length →
        (X.take L ++ (if L < X.length then ['…'] else [])).length ≤ L + 1 ∧
        (X.take L ++ (if L < X.length then ['…'] else [])).getLast? = some '…') := by
    intro X L
    by_cases h : L < X.length
    · rw [if_pos h]
      have hlen : (X.take L ++ ['…']).length ≤ L + 1 := by
        simp only [List.length_append, List.length_take, List.length_singleton]
        omega
      exact ⟨hlen, fun hle => absurd h (by omega), fun _ => ⟨hlen, List.getLast?_concat _⟩⟩
    · rw [if_neg h]
      push_neg at h
      refine ⟨?_, fun _ => by simp [List.take_of_length_le h], fun hlt => absurd hlt (by omega)⟩
      simp only [List.append_nil, List.length_take]
      omega
  by_cases h0 : text = []
  · subst h0
    refine ⟨by simp [smart_extract_summary], fun _ => by simp [smart_extract_summary, summaryRaw],
      fun habs => absurd habs (by simp [summaryLimit, summaryRaw])⟩
  · by_cases h1 : summarySentences text = []
    · have eo : smart_extract_summary scoreFn text maxS =
          (normalize_whitespace text).take 400 ++
            (if 400 < (normalize_whitespace text).length then ['…'] else []) := by
        unfold smart_extract_summary
        rw [if_neg h0, if_pos (show split_sentences_ru (normalize_whitespace text) = [] from h1)]
      have er : summaryRaw scoreFn text maxS = normalize_whitespace text := by
        unfold summaryRaw
        rw [if_neg h0, if_pos h1]
      have el : summaryLimit text = 400 := by
        unfold summaryLimit
        rw [if_neg h0, if_pos h1]
      rw [eo, er, el]
      obtain ⟨k1, k2, k3⟩ := key (normalize_whitespace text) 400
      exact ⟨by omega, k2, k3⟩
    · by_cases h2 : sentenceFilter (summarySentences text) = []
      · have eo : smart_extract_summary scoreFn text maxS =
            (joinSpace ((summarySentences text).take maxS)).take 500 ++
              (if 500 < (joinSpace ((summarySentences text).take maxS)).length
                then ['…'] else []) := by
          unfold smart_extract_summary
          rw [if_neg h0,
            if_neg (show ¬split_sentences_ru (normalize_whitespace text) = [] from h1),
            if_pos (show sentenceFilter (split_sentences_ru (normalize_whitespace text)) = []
              from h2)]
          rfl
        have er : summaryRaw scoreFn text maxS = joinSpace ((summarySentences text).take maxS) := by
          unfold summaryRaw
          rw [if_neg h0, if_neg h1, if_pos h2]
        have el : summaryLimit text = 500 := by
          unfold summaryLimit
          rw [if_neg h0, if_neg h1, if_pos h2]
        rw [eo, er, el]
        obtain ⟨k1, k2, k3⟩ := key (joinSpace ((summarySentences text).take maxS)) 500
        exact ⟨by omega, k2, k3⟩
      · by_cases h3 : (sentenceFilter (summarySentences text)).length ≤ maxS
        · have eo : smart_extract_summary scoreFn text maxS =
              (joinSpace ((sentenceFilter (summarySentences text)).map (fun x => x.2))).take 600 ++
                (if 600 < (joinSpace ((sentenceFilter (summarySentences text)).map
                  (fun x => x.2))).length then ['…'] else []) := by
            unfold smart_extract_summary
            rw [if_neg h0,
              if_neg (show ¬split_sentences_ru (normalize_whitespace text) = [] from h1),
              if_neg (show ¬sentenceFilter (split_sentences_ru (normalize_whitespace text)) = []
                from h2),
              if_pos (show (sentenceFilter (split_sentences_ru
                (normalize_whitespace text))).length ≤ maxS from h3)]
            rfl
          have er : summaryRaw scoreFn text maxS =
              joinSpace ((sentenceFilter (summarySentences text)).map (fun x => x.2)) := by
            unfold summaryRaw
            rw [if_neg h0, if_neg h1, if_neg h2, if_pos h3]
          have el : summaryLimit text = 600 := by
            unfold summaryLimit
            rw [if_neg h0, if_neg h1, if_neg h2]
          rw [eo, er, el]
          obtain ⟨k1, k2, k3⟩ := key
            (joinSpace ((sentenceFilter (summarySentences text)).map (fun x => x.2))) 600
          exact ⟨by omega, k2, k3⟩
        · have eo : smart_extract_summary scoreFn text maxS =
              (if 600 < (joinSpace (summaryFinal scoreFn text maxS)).length then
                trimRightP isPyWsChar ((joinSpace (summaryFinal scoreFn text maxS)).take 600)
                  ++ ['…']
              else joinSpace (summaryFinal scoreFn text maxS)) := by
            unfold smart_extract_summary
            rw [if_neg h0,
              if_neg (show ¬split_sentences_ru (normalize_whitespace text) = [] from h1),
              if_neg (show ¬sentenceFilter (split_sentences_ru (normalize_whitespace text)) = []
                from h2),
              if_neg (show ¬(sentenceFilter (split_sentences_ru
                (normalize_whitespace text))).length ≤ maxS from h3)]
            rfl
          have er : summaryRaw scoreFn text maxS = joinSpace (summaryFinal scoreFn text maxS) := by
            unfold summaryRaw
            rw [if_neg h0, if_neg h1, if_neg h2, if_neg h3]
          have el : summaryLimit text = 600 := by
            unfold summaryLimit
            rw [if_neg h0, if_neg h1, if_neg h2]
          rw [eo, er, el]
          by_cases h4 : 600 < (joinSpace (summaryFinal scoreFn text maxS)).length
          · rw [if_pos h4]
            have hlen : (trimRightP isPyWsChar
                ((joinSpace (summaryFinal scoreFn text maxS)).take 600) ++ ['…']).length ≤ 601 := by
              have := trimRightP_length_le isPyWsChar
                ((joinSpace (summaryFinal scoreFn text maxS)).take 600)
              simp only [List.length_append, List.length_singleton]
              have h600 : ((joinSpace (summaryFinal scoreFn text maxS)).take 600).length ≤ 600 := by
                simp [List.length_take]
              omega
            exact ⟨hlen, fun hle => absurd h4 (by omega),
              fun _ => ⟨hlen, List.getLast?_concat _⟩⟩
          · rw [if_neg h4]
            push_neg at h4
            exact ⟨by omega, fun _ => rfl, fun hlt => absurd hlt (by omega)⟩

set_option maxRecDepth 100000 in
/-- Witness for C3 at a truncating input (700 identical characters):
output capped at 601 with a trailing ellipsis. -/
theorem summary_length_and_ellipsis_witness :
    (smart_extract_summary zeroScores (List.replicate 700 'a') 3).length ≤ 601 ∧
    (smart_extract_summary zeroScores (List.replicate 700 'a') 3).getLast? = some '…' := by
  have h := summary_length_and_ellipsis zeroScores (List.replicate 700 'a') 3
  exact ⟨h.1, (h.2.2 (by decide)).2⟩

/-- C4: when more sentences survive the filter than `max_sentences`
(so score-based selection runs), the emitted sentences form a sublist
of the document sentence list — original document order, not score
order — and the output is exactly their space-join, truncated at 600. -/
theorem summary_document_order (scoreFn : ScoreFn) (text : List Char) (maxS : Nat)
    (h : maxS < (sentenceFilter (summarySentences text)).length) :
    List.Sublist (summaryFinal scoreFn text maxS) (summarySentences text) ∧
    smart_extract_summary scoreFn text maxS =
      (if 600 < (joinSpace (summaryFinal scoreFn text maxS)).length then
        trimRightP isPyWsChar ((joinSpace (summaryFinal scoreFn text maxS)).take 600) ++ ['…']
      else joinSpace (summaryFinal scoreFn text maxS)) := by
  constructor
  · exact List.filter_sublist _
  · have h0 : text ≠ [] := by
      intro he
      rw [he] at h
      rw [show sentenceFilter (summarySentences []) = [] from rfl] at h
      simp at h
    have h1 : summarySentences text ≠ [] := by
      intro he
      rw [show sentenceFilter (summarySentences text) = [] from by rw [he]; rfl] at h
      simp at h
    have h2 : sentenceFilter (summarySentences text) ≠ [] := by
      intro he
      rw [he] at h
      simp at h
    have h3 : ¬(sentenceFilter (summarySentences text)).length ≤ maxS := by omega
    unfold smart_extract_summary
    rw [if_neg h0,
      if_neg (show ¬split_sentences_ru (normalize_whitespace text) = [] from h1),
      if_neg (show ¬sentenceFilter (split_sentences_ru (normalize_whitespace text)) = []
        from h2),
      if_neg (show ¬(sentenceFilter (split_sentences_ru
        (normalize_whitespace text))).length ≤ maxS from h3)]
    rfl

set_option maxRecDepth 100000 in
/-- Witness for C4 at a four-sentence article. -/
theorem summary_document_order_witness :
    List.Sublist
      (summaryFinal zeroScores ("The committee reviewed the annual budget report on Monday. Several regional projects received additional funding this year. Officials expect the new measures to reduce costs significantly. A final decision will be published after the next meeting.").data 3)
      (summarySentences ("The committee reviewed the annual budget report on Monday. Several regional projects received additional funding this year. Officials expect the new measures to reduce costs significantly. A final decision will be published after the next meeting.").data) :=
  (summary_document_order zeroScores _ 3 (by decide)).1

/-! ### Whitespace normalization is idempotent -/

/-- No two adjacent whitespace characters follow. -/
def headNotWs : List Char → Bool
  | [] => true
  | d :: _ => !isPyWsChar d

/-- Collapse-normal text: every whitespace character is a single space
not followed by whitespace. -/
def wsNormal : List Char → Bool
  | [] => true
  | c :: cs => (if isPyWsChar c then c = ' ' && headNotWs cs else true) && wsNormal cs

theorem headNotWs_collapseWsAux_true (cs : List Char) :
    headNotWs (collapseWsAux true cs) = true := by
  induction cs with
  | nil => rfl
  | cons d ds ih =>
    by_cases hd : isPyWsChar d = true
    · rw [collapseWsAux, if_pos hd, if_pos rfl]
      exact ih
    · rw [collapseWsAux, if_neg hd]
      simp [headNotWs]
      simpa using hd

theorem wsNormal_collapseWsAux (t : List Char) :
    ∀ inWs, wsNormal (collapseWsAux inWs t) = true := by
  induction t with
  | nil => intro _; rfl
  | cons c cs ih =>
    intro inWs
    by_cases hc : isPyWsChar c = true
    · cases inWs with
      | true =>
        rw [collapseWsAux, if_pos hc, if_pos rfl]
        exact ih true
      | false =>
        rw [collapseWsAux, if_pos hc]
        simp only [Bool.false_eq_true, if_false]
        rw [wsNormal]
        rw [if_pos (by decide : isPyWsChar ' ' = true)]
        simp [headNotWs_collapseWsAux_true, ih true]
    · rw [collapseWsAux, if_neg hc]
      rw [wsNormal, if_neg hc]
      simp [ih false]

theorem wsNormal_dropWhile {l : List Char} (h : wsNormal l = true) :
    wsNormal (l.dropWhile isPyWsChar) = true := by
  induction l with
  | nil => simp [h]
  | cons c cs ih =>
    by_cases hc : isPyWsChar c = true
    · rw [List.dropWhile_cons, if_pos hc]
      rw [wsNormal, Bool.and_eq_true] at h
      exact ih h.2
    · rw [List.dropWhile_cons, if_neg hc]
      exact h

theorem wsNormal_append_left {a b : List Char} (h : wsNormal (a ++ b) = true) :
    wsNormal a = true := by
  induction a with
  | nil => rfl
  | cons c a' ih =>
    rw [List.cons_append, wsNormal, Bool.and_eq_true] at h
    rw [wsNormal, Bool.and_eq_true]
    refine ⟨?_, ih h.2⟩
    by_cases hc : isPyWsChar c = true
    · rw [if_pos hc] at h ⊢
      rw [Bool.and_eq_true] at h ⊢
      refine ⟨h.1.1, ?_⟩
      cases a' with
      | nil => rfl
      | cons d ds =>
        have := h.1.2
        simpa [headNotWs] using this
    · rw [if_neg hc]

theorem collapseWsAux_of_wsNormal {y : List Char} (h : wsNormal y = true) :
    collapseWsAux false y = y ∧ (headNotWs y = true → collapseWsAux true y = y) := by
  induction y with
  | nil => exact ⟨rfl, fun _ => rfl⟩
  | cons c cs ih =>
    rw [wsNormal, Bool.and_eq_true] at h
    obtain ⟨hcond, hrest⟩ := h
    by_cases hc : isPyWsChar c = true
    · rw [if_pos hc, Bool.and_eq_true] at hcond
      have hc32 : c = ' ' := by simpa using hcond.1
      have hhead : headNotWs cs = true := hcond.2
      have htrue : collapseWsAux true cs = cs := (ih hrest).2 hhead
      constructor
      · rw [collapseWsAux, if_pos hc, hc32]
        simp [htrue]
      · intro habs
        rw [headNotWs, hc] at habs
        simp at habs
    · have hfalse : collapseWsAux false cs = cs := (ih hrest).1
      constructor
      · rw [collapseWsAux, if_neg hc, hfalse]
      · intro _
        rw [collapseWsAux, if_neg hc, hfalse]

theorem normalize_whitespace_idem (t : List Char) :
    normalize_whitespace (normalize_whitespace t) = normalize_whitespace t := by
  unfold normalize_whitespace
  have h1 : wsNormal (collapseWs t) = true := wsNormal_collapseWsAux t false
  have h2 : wsNormal (pyStripChars (collapseWs t)) = true := by
    unfold pyStripChars trimBothP trimLeftP
    obtain ⟨r, hr, _⟩ := trimRightP_decomp isPyWsChar ((collapseWs t).dropWhile isPyWsChar)
    refine wsNormal_append_left (a := trimRightP isPyWsChar
      ((collapseWs t).dropWhile isPyWsChar)) (b := r) ?_
    rw [← hr]
    exact wsNormal_dropWhile h1
  have h3 : collapseWs (pyStripChars (collapseWs t)) = pyStripChars (collapseWs t) :=
    (collapseWsAux_of_wsNormal h2).1
  rw [h3]
  exact trimBothP_idem _ _

/-- C10: the summarizer is insensitive to the whitespace layout of its
input: summarizing the whitespace-normalized text gives the same
output as summarizing the raw text. -/
theorem summarize_ws_insensitive (scoreFn : ScoreFn) (maxS : Nat) (text : List Char) :
    smart_extract_summary scoreFn (normalize_whitespace text) maxS =
      smart_extract_summary scoreFn text maxS := by
  by_cases h0 : text = []
  · subst h0; rfl
  · by_cases h1 : normalize_whitespace text = []
    · rw [h1]
      have hR : smart_extract_summary scoreFn text maxS = [] := by
        unfold smart_extract_summary
        rw [if_neg h0]
        have hs : split_sentences_ru (normalize_whitespace text) = [] := by
          rw [h1]; rfl
        rw [if_pos hs, h1]
        rfl
      rw [hR]
      rfl
    · unfold smart_extract_summary
      rw [if_neg h0, if_neg h1, normalize_whitespace_idem]

/-! ### C5: sentences of three or fewer -/

set_option maxRecDepth 100000 in
/-- C5 counterexample: a two-sentence input whose first sentence is
boilerplate (it mentions a social network).  The summarizer drops it,
so the output is not the input sentences rejoined. -/
theorem summarize_le3_counterexample :
    (summarySentences ("Follow our twitter for updates and breaking news. The government announced a new economic policy today.").data).length ≤ 3 ∧
    summarize zeroScores ("Follow our twitter for updates and breaking news. The government announced a new economic policy today.").data ≠
      joinSpace (summarySentences ("Follow our twitter for updates and breaking news. The government announced a new economic policy today.").data) := by
  constructor
  · decide
  · decide

theorem rawSplitAux_ne_nil (prev : Char) (b : Bool) (l : List Char) :
    rawSplitAux prev b l ≠ [] := by
  induction l generalizing prev b with
  | nil => simp [rawSplitAux]
  | cons c cs ih =>
    rw [rawSplitAux]
    cases b with
    | true =>
      by_cases hc : isPyWsChar c = true
      · simpa [hc] using ih c true
      · simp only [if_true, hc, Bool.false_eq_true, if_false]
        have := ih c false
        cases e : rawSplitAux c false cs with
        | nil => exact absurd e this
        | cons p ps => simp [List.modifyHead]
    | false =>
      by_cases hsep : isPyWsChar c = true ∧ isSentEndChar prev = true
      · simp [hsep]
      · simp only [Bool.false_eq_true, if_false, if_neg hsep]
        have := ih c false
        cases e : rawSplitAux c false cs with
        | nil => exact absurd e this
        | cons p ps => simp [List.modifyHead]

theorem pyStripChars_ne_nil {c : Char} {l : List Char} (hc : isPyWsChar c = false) :
    pyStripChars (c :: l) ≠ [] := by
  unfold pyStripChars trimBothP trimLeftP
  rw [List.dropWhile_cons, if_neg (by simp [hc])]
  intro habs
  obtain ⟨r, hr, hws⟩ := trimRightP_decomp isPyWsChar (c :: l)
  rw [habs] at hr
  rw [List.nil_append] at hr
  have : isPyWsChar c = true := hws c (by rw [← hr]; simp)
  rw [hc] at this
  exact absurd this (by simp)

theorem buildStep_ne_nil {out : List (List Char)} (h : out ≠ []) (p : List Char) :
    buildStep out p ≠ [] := by
  unfold buildStep
  by_cases h1 : pyStripChars p = []
  · rw [if_pos h1]; exact h
  · rw [if_neg h1]
    by_cases h2 : out ≠ [] ∧ endsWithAbbr (out.getLast?.getD []) = true
    · rw [if_pos h2]; simp
    · rw [if_neg h2]; simp

theorem foldl_buildStep_ne_nil (parts : List (List Char)) :
    ∀ out, out ≠ [] → parts.foldl buildStep out ≠ [] := by
  induction parts with
  | nil => intro out h; exact h
  | cons p ps ih =>
    intro out h
    exact ih _ (buildStep_ne_nil h p)

theorem summarySentences_ne_nil {text : List Char} (h : normalize_whitespace text ≠ []) :
    summarySentences text ≠ [] := by
  unfold summarySentences split_sentences_ru
  cases e : normalize_whitespace text with
  | nil => exact absurd e h
  | cons c rest =>
    have hcn : isPyWsChar c = false := by
      have hh : (normalize_whitespace text).head? = some c := by rw [e]; rfl
      unfold normalize_whitespace pyStripChars trimBothP at hh
      have hne : trimRightP isPyWsChar (trimLeftP isPyWsChar (collapseWs text)) ≠ [] := by
        intro habs
        rw [habs] at hh
        simp at hh
      rw [head?_trimRightP isPyWsChar _ hne] at hh
      unfold trimLeftP at hh
      exact head?_dropWhile_false _ _ _ hh
    rw [rawSplitAux]
    rw [if_neg (by simp)]
    rw [if_neg (by simp [hcn])]
    cases e2 : rawSplitAux c false rest with
    | nil => exact absurd e2 (rawSplitAux_ne_nil c false rest)
    | cons p ps =>
      simp only [List.modifyHead]
      rw [List.foldl_cons]
      refine foldl_buildStep_ne_nil ps _ ?_
      unfold buildStep
      rw [if_neg (pyStripChars_ne_nil hcn)]
      rw [if_neg (by simp)]
      simp

theorem split_sentences_stripped (x : List Char) :
    ∀ s ∈ split_sentences_ru x, pyStripChars s = s := by
  unfold split_sentences_ru
  generalize rawSplitAux ' ' false x = parts
  have main : ∀ (parts : List (List Char)) (out : List (List Char)),
      (∀ s ∈ out, pyStripChars s = s) →
      ∀ s ∈ parts.foldl buildStep out, pyStripChars s = s := by
    intro parts
    induction parts with
    | nil => intro out h s hs; exact h s hs
    | cons p ps ih =>
      intro out h s hs
      rw [List.foldl_cons] at hs
      refine ih _ ?_ s hs
      intro t ht
      unfold buildStep at ht
      by_cases h1 : pyStripChars p = []
      · rw [if_pos h1] at ht; exact h t ht
      · rw [if_neg h1] at ht
        by_cases h2 : out ≠ [] ∧ endsWithAbbr (out.getLast?.getD []) = true
        · rw [if_pos h2] at ht
          rcases List.mem_append.mp ht with h3 | h3
          · exact h t ((List.dropLast_sublist out).mem h3)
          · simp at h3
            subst h3
            exact trimBothP_idem _ _
        · rw [if_neg h2] at ht
          rcases List.mem_append.mp ht with h3 | h3
          · exact h t h3
          · simp at h3
            subst h3
            exact trimBothP_idem _ _
  exact main parts [] (by simp)

theorem filterMap_eq_map_of_some {f : α → Option β} {g : α → β} {l : List α}
    (h : ∀ x ∈ l, f x = some (g x)) : l.filterMap f = l.map g := by
  induction l with
  | nil => rfl
  | cons a t ih =>
    rw [List.filterMap_cons, h a (by simp), List.map_cons]
    rw [ih (fun x hx => h x (by simp [hx]))]

theorem enumFrom_snd_mem {l : List α} {n : Nat} {is : Nat × α}
    (h : is ∈ l.enumFrom n) : is.2 ∈ l := by
  induction l generalizing n with
  | nil => simp [List.enumFrom] at h
  | cons a t ih =>
    rw [List.enumFrom] at h
    rcases List.mem_cons.mp h with h1 | h1
    · subst h1; simp
    · exact List.mem_cons_of_mem _ (ih h1)

theorem enum_snd_mem {l : List α} {is : Nat × α} (h : is ∈ l.enum) : is.2 ∈ l :=
  enumFrom_snd_mem h

theorem enumFrom_map_snd (g : α → β) (l : List α) :
    ∀ n, (l.enumFrom n).map (fun is => g is.2) = l.map g := by
  induction l with
  | nil => intro n; rfl
  | cons a t ih =>
    intro n
    rw [List.enumFrom, List.map_cons, List.map_cons, ih]

/-- C5 amended: for input splitting into at most three sentences, each
of which passes the length and boilerplate filter, and whose rejoined
text fits in 600 characters, the summarizer returns exactly the input
sentences rejoined with spaces in input order. -/
theorem summarize_le3_amended (scoreFn : ScoreFn) (text : List Char)
    (h1 : (summarySentences text).length ≤ 3)
    (h2 : ∀ s ∈ summarySentences text,
        30 ≤ (pyStripChars s).length ∧ is_boilerplate (pyStripChars s) = false)
    (h3 : (joinSpace (summarySentences text)).length ≤ 600) :
    summarize scoreFn text = joinSpace (summarySentences text) := by
  unfold summarize
  by_cases h0 : text = []
  · subst h0
    rfl
  · by_cases hs : summarySentences text = []
    · have hnw : normalize_whitespace text = [] := by
        by_contra hne
        exact summarySentences_ne_nil hne hs
      rw [hs]
      unfold smart_extract_summary
      rw [if_neg h0]
      rw [if_pos (show split_sentences_ru (normalize_whitespace text) = [] from hs), hnw]
      rfl
    · have hfeq : sentenceFilter (summarySentences text) =
          (summarySentences text).enum.map (fun is => (is.1, pyStripChars is.2)) := by
        unfold sentenceFilter
        refine filterMap_eq_map_of_some ?_
        intro is his
        have := h2 is.2 (enum_snd_mem his)
        simp only
        rw [if_pos ⟨this.1, this.2⟩]
      have hstripped : ∀ s ∈ summarySentences text, pyStripChars s = s :=
        fun s hsm => split_sentences_stripped _ s hsm
      have hsnd : (sentenceFilter (summarySentences text)).map (fun x => x.2) =
          summarySentences text := by
        rw [hfeq, List.map_map]
        have : ((fun x => x.2) ∘ fun is : Nat × List Char => (is.1, pyStripChars is.2)) =
            fun is : Nat × List Char => pyStripChars is.2 := rfl
        rw [this]
        rw [show (summarySentences text).enum.map (fun is => pyStripChars is.2) =
          (summarySentences text).map pyStripChars from enumFrom_map_snd _ _ 0]
        refine List.map_congr_left ?_ |>.trans (List.map_id _)
        intro s hsm
        exact hstripped s hsm
      have hflen : (sentenceFilter (summarySentences text)).length =
          (summarySentences text).length := by
        rw [hfeq]
        simp [List.enum]
      have hfne : sentenceFilter (summarySentences text) ≠ [] := by
        intro he
        rw [he] at hflen
        exact hs (List.length_eq_zero.mp hflen.symm)
      have h1x : (sentenceFilter (split_sentences_ru
          (normalize_whitespace text))).length ≤ 3 := by
        have hx : (sentenceFilter (summarySentences text)).length ≤ 3 := by
          rw [hflen]; exact h1
        exact hx
      have eo : smart_extract_summary scoreFn text 3 =
          (joinSpace ((sentenceFilter (summarySentences text)).map (fun x => x.2))).take 600 ++
            (if 600 < (joinSpace ((sentenceFilter (summarySentences text)).map
              (fun x => x.2))).length then ['…'] else []) := by
        unfold smart_extract_summary
        rw [if_neg h0,
          if_neg (show ¬split_sentences_ru (normalize_whitespace text) = [] from hs),
          if_neg (show ¬sentenceFilter (split_sentences_ru (normalize_whitespace text)) = []
            from hfne),
          if_pos h1x]
        rfl
      rw [eo, hsnd]
      rw [List.take_of_length_le h3]
      rw [if_neg (by omega)]
      simp

set_option maxRecDepth 100000 in
/-- Witness for the amended C5 at a two-sentence article. -/
theorem summarize_le3_amended_witness :
    summarize zeroScores ("The government announced a new economic policy today. Parliament will debate the proposal next week.").data =
      joinSpace (summarySentences ("The government announced a new economic policy today. Parliament will debate the proposal next week.").data) :=
  summarize_le3_amended zeroScores _ (by decide) (by decide) (by decide)

/-! ### The ingestion orchestrator (src/app/ingest.py `fetch_and_store`)

External collaborators — feedparser, the httpx page-fetch retry loop,
the BeautifulSoup extractors, hashlib sha256, and rapidfuzz
token_set_ratio — are parameters of the embedding, collected in `Ext`;
every statement below is universally quantified over them.  `feed`
models `feedparser.parse(url).entries`, with `none` for the case where
the fetch errors out (feedparser absorbs the error and yields no
entries).  `fetchPage` models the three-attempt HTTP loop of lines
211-220: `some t` with `t` the body when some attempt returns status
200 with non-empty text, else `none`. -/

/-- One parsed feed entry (the fields of `entry` read by lines
190-202): text fields as character strings, the raw link as bytes,
`published` the parsed timestamp when `published_parsed` is set. -/
structure Entry where
  title : List Char
  link : List Nat
  summary : List Char
  description : List Char
  published : Option Nat
deriving DecidableEq, Repr

/-- External collaborators of `fetch_and_store`. -/
structure Oracles where
  feed : List Nat → Option (List Entry)
  fetchPage : List Nat → Option (List Char)
  firstParagraph : List Char → List Char
  imageFromEntry : Entry → Option (List Nat)
  imageFromHtml : List Char → Option (List Nat)
  sha256hex32 : List Nat → List Char
  tokenSetScore : List Char → List Char → Nat
  scoreFn : ScoreFn

/-- Per-run page cache (src/app/ingest.py line 158), an association
list keyed by the fetched URL. -/
abbrev PageCache : Type := List (List Nat × List Char)

/-- Dictionary lookup in the page cache. -/
def lookupPage (cache : PageCache) (k : List Nat) : Option (List Char) :=
  (List.find? (fun kv => kv.1 == k) cache).map (fun kv => kv.2)

/-- Source configuration entry (the dict values of
src/app/config.py `DEFAULT_SOURCES` and of line 174). -/
structure SourceCfg where
  title : List Char
  type : List Char
  url : List Nat
  enabled : Bool
deriving DecidableEq, Repr

/-- The predefined sources (src/app/config.py `DEFAULT_SOURCES`), in
dict insertion order. -/
def DEFAULT_SOURCES : List (List Char × SourceCfg) :=
  [("vc_all".data, ⟨"VC.ru — Все".data, "rss".data, asciiBytes "https://vc.ru/rss/all", true⟩),
   ("habr_dev".data, ⟨"Habr — Разработка".data, "rss".data, asciiBytes "https://habr.com/ru/rss/hub/develop/", true⟩),
   ("habr_ai".data, ⟨"Habr — Искусственный интеллект".data, "rss".data, asciiBytes "https://habr.com/ru/rss/hub/artificial_intelligence/", true⟩),
   ("habr_infosec".data, ⟨"Habr — Информационная безопасность".data, "rss".data, asciiBytes "https://habr.com/ru/rss/hub/infosecurity/", true⟩),
   ("habr_management".data, ⟨"Habr — Управление IT".data, "rss".data, asciiBytes "https://habr.com/ru/rss/hub/management/", true⟩),
   ("tproger".data, ⟨"Tproger".data, "rss".data, asciiBytes "https://tproger.ru/feed", true⟩),
   ("3dnews".data, ⟨"3DNews — Новости".data, "rss".data, asciiBytes "https://3dnews.ru/news/rss", true⟩)]

/-- Synthetic key for the i-th user-supplied feed
(src/app/ingest.py line 174). -/
def userRssKey (i : Nat) : List Char := "user_rss_".data ++ (Nat.repr i).data

/-- Pseudo-source entries built from the user-supplied feed URLs
(src/app/ingest.py lines 169-174): empty URLs are skipped but still
consume their enumeration index. -/
def extraItems (extra : List (List Nat)) : List (List Char × SourceCfg) :=
  extra.enum.filterMap fun iu =>
    if iu.2 = [] then none
    else some (userRssKey iu.1, ⟨"Пользовательский RSS".data, "rss".data, iu.2, true⟩)

example : extraItems [[], asciiBytes "http://e.x/f"] =
    [("user_rss_1".data, ⟨"Пользовательский RSS".data, "rss".data, asciiBytes "http://e.x/f", true⟩)] := by decide

/-- Dedup key (src/app/ingest.py `_make_dedup_key`): sha256 of
`title + "|" + url` in UTF-8, truncated to 32 hex digits — the hash
itself is the external `sha256hex32`. -/
def make_dedup_key (ext : Oracles) (title : List Char) (url : List Nat) : List Char :=
  ext.sha256hex32 (utf8Bytes title ++ 124 :: url)

/-- Near-duplicate stage (src/app/ingest.py `_is_near_duplicate`):
compare title-plus-snippet against the most recent `recent` stored
articles with the external similarity score; true when some candidate
scores at least `threshold`. -/
def is_near_duplicate (ext : Oracles) (db : List Article) (title snippet : List Char)
    (threshold recent : Nat) : Bool :=
  let base0 := pyStripChars title
  let base := if snippet ≠ [] then pyStripChars (base0 ++ ' ' :: snippet) else base0
  if base = [] then false
  else
    ((db.reverse).take recent).any fun a =>
      let cand := if a.snippet ≠ [] then a.title ++ ' ' :: a.snippet else a.title
      if cand = [] then false else decide (threshold ≤ ext.tokenSetScore base cand)

/-- The page-fetch block of lines 206-220: consult the cache, else run
the retry loop; a body is used (and cached) only when non-empty
(the `if r.status_code == 200 and r.text` and `if text` guards). -/
def pageText (ext : Oracles) (cache : PageCache) (u : List Nat) :
    Option (List Char) × PageCache :=
  match lookupPage cache u with
  | some t => (if t = [] then none else some t, cache)
  | none =>
    match ext.fetchPage u with
    | some t => if t = [] then (none, cache) else (some t, cache ++ [(u, t)])
    | none => (none, cache)

/-- Snippet and image extraction for one entry (lines 197-226): the
feed-provided summary-or-description, stripped, run through the
first-paragraph extractor when non-empty; when that leaves no snippet,
fetch the page (keyed and addressed by `link or link_raw`) and take
its first paragraph, falling back to the page for the image as well. -/
def entrySnippet (ext : Oracles) (cache : PageCache) (link link_raw : List Nat)
    (entry : Entry) : List Char × Option (List Nat) × PageCache :=
  let snippetA := pyStripChars (if entry.summary ≠ [] then entry.summary else entry.description)
  let snippetB := if snippetA ≠ [] then ext.firstParagraph snippetA else snippetA
  let image0 := ext.imageFromEntry entry
  if snippetB = [] then
    match pageText ext cache (if link ≠ [] then link else link_raw) with
    | (some t, c) =>
      (ext.firstParagraph t, (if image0 = none then ext.imageFromHtml t else image0), c)
    | (none, c) => (snippetB, image0, c)
  else (snippetB, image0, cache)

/-- State threaded through the entries of one source: the article
store, the page cache, and the source's added counter. -/
structure EntryState where
  db : List Article
  cache : PageCache
  added : Nat

/-- Processing of one feed entry (src/app/ingest.py lines 189-253):
normalize the title and link, extract snippet and image, then skip on
an exact or near duplicate, else persist the article (title falling
back to the placeholder) and bump the counter. -/
def processEntry (ext : Oracles) (key : List Char) (cfg : SourceCfg)
    (st : EntryState) (entry : Entry) : EntryState :=
  let title := pyStripChars entry.title
  let link_raw := pyStripBytes entry.link
  let link := normalize_url link_raw
  let r := entrySnippet ext st.cache link link_raw entry
  let dedup_key := make_dedup_key ext title link
  if exact_stage st.db link dedup_key then { st with cache := r.2.2 }
  else if is_near_duplicate ext st.db title r.1 88 300 then { st with cache := r.2.2 }
  else
    { db := st.db ++
        [{ title := if title ≠ [] then title else "(без заголовка)".data,
           url := link, source_key := key, source_title := cfg.title,
           snippet := r.1,
           summary := summarize ext.scoreFn (if r.1 ≠ [] then r.1 else title),
           image_url := r.2.1, published_at := entry.published,
           dedup_key := dedup_key }],
      cache := r.2.2, added := st.added + 1 }

/-- Global run state: per-source stats in insertion order, the article
store, and the page cache. -/
structure RunState where
  stats : List (List Char × Nat)
  db : List Article
  cache : PageCache

/-- Processing of one source (src/app/ingest.py lines 176-257): skip a
predefined source filtered out by the selection (user extras always
pass), skip non-rss or url-less configs, else fold the first `limit`
feed entries and record the source's count (also when zero). -/
def processSource (ext : Oracles) (sel : List (List Char)) (limit : Nat)
    (st : RunState) (kc : List Char × SourceCfg) : RunState :=
  if (sel ≠ [] ∧ kc.1 ∉ sel) ∧ ¬("user_rss_".data.isPrefixOf kc.1 = true) then st
  else if kc.2.type ≠ "rss".data then st
  else if kc.2.url = [] then st
  else
    let es := (((ext.feed kc.2.url).getD []).take limit).foldl
      (processEntry ext kc.1 kc.2) ⟨st.db, st.cache, 0⟩
    ⟨st.stats ++ [(kc.1, es.added)], es.db, es.cache⟩

/-- The orchestrator (src/app/ingest.py `fetch_and_store`): fold the
predefined sources followed by the user-supplied extras over an
initially empty stats map and page cache. -/
def fetch_and_store (ext : Oracles) (db0 : List Article) (sel : List (List Char))
    (limit : Nat) (extra : List (List Nat)) : RunState :=
  (DEFAULT_SOURCES ++ extraItems extra).foldl (processSource ext sel limit) ⟨[], db0, []⟩

/-! ### Concrete oracles for evaluating the orchestrator -/

/-- A feed entry whose link is empty (its title and summary are
plain text). -/
def e0B : Entry :=
  ⟨"T".data, [], "Short.".data, [], none⟩

/-- Concrete external collaborators: one feed at `http://e.x/f`
holding the single entry `e0B`, all other fetches failing, identity
first-paragraph extraction, no images, a stub hash, similarity 0, and
the zero sentence scoring. -/
def extBase : Oracles :=
  ⟨fun u => if u = asciiBytes "http://e.x/f" then some [e0B] else none,
   fun _ => none,
   fun t => t,
   fun _ => none,
   fun _ => none,
   fun _ => ['h'],
   fun _ _ => 0,
   zeroScores⟩

set_option maxRecDepth 10000 in
/-- C6 counterexample: a run over one user-supplied feed whose single
entry has an empty link does not skip the entry — it persists an
article whose stored url is empty. -/
theorem missing_link_counterexample :
    e0B.link = [] ∧
    ((fetch_and_store extBase [] [] 20 [asciiBytes "http://e.x/f"]).db.map
      (fun a => a.url)) = [[]] := by decide

/-- C6 (amended): an entry whose stripped link is empty receives no
special treatment — when the exact and near-duplicate stages both
pass, it is persisted as an article with an empty url, bumping the
counter. -/
theorem missing_link_not_skipped (ext : Oracles) (key : List Char) (cfg : SourceCfg)
    (st : EntryState) (entry : Entry)
    (hlink : pyStripBytes entry.link = [])
    (hx : exact_stage st.db []
      (make_dedup_key ext (pyStripChars entry.title) []) = false)
    (hn : is_near_duplicate ext st.db (pyStripChars entry.title)
      (entrySnippet ext st.cache [] [] entry).1 88 300 = false) :
    ∃ art, (processEntry ext key cfg st entry).db = st.db ++ [art] ∧
      art.url = [] ∧ (processEntry ext key cfg st entry).added = st.added + 1 := by
  have hnu : normalize_url ([] : List Nat) = [] := rfl
  have he : processEntry ext key cfg st entry =
      { db := st.db ++
          [{ title := if pyStripChars entry.title ≠ [] then pyStripChars entry.title
               else "(без заголовка)".data,
             url := [], source_key := key, source_title := cfg.title,
             snippet := (entrySnippet ext st.cache [] [] entry).1,
             summary := summarize ext.scoreFn
               (if (entrySnippet ext st.cache [] [] entry).1 ≠ []
                then (entrySnippet ext st.cache [] [] entry).1
                else pyStripChars entry.title),
             image_url := (entrySnippet ext st.cache [] [] entry).2.1,
             published_at := entry.published,
             dedup_key := make_dedup_key ext (pyStripChars entry.title) [] }],
        cache := (entrySnippet ext st.cache [] [] entry).2.2,
        added := st.added + 1 } := by
    simp only [processEntry, hlink, hnu, hx, hn, Bool.false_eq_true, if_false]
  exact ⟨_, by rw [he], rfl, by rw [he]⟩

/-- Witness for the amended C6 at a concrete empty-link entry over an
empty store. -/
theorem missing_link_not_skipped_witness :
    ∃ art, (processEntry extBase "k".data
        ⟨"Пользовательский RSS".data, "rss".data, asciiBytes "http://e.x/f", true⟩
        ⟨[], [], 0⟩ e0B).db = [] ++ [art] ∧
      art.url = [] ∧
      (processEntry extBase "k".data
        ⟨"Пользовательский RSS".data, "rss".data, asciiBytes "http://e.x/f", true⟩
        ⟨[], [], 0⟩ e0B).added = 0 + 1 :=
  missing_link_not_skipped extBase "k".data
    ⟨"Пользовательский RSS".data, "rss".data, asciiBytes "http://e.x/f", true⟩
    ⟨[], [], 0⟩ e0B (by decide) (by decide) (by decide)

/-- Helper for C7: no predefined source key carries the synthetic
user-feed key shape. -/
theorem default_sources_not_user :
    ∀ kc ∈ DEFAULT_SOURCES, ("user_rss_".data.isPrefixOf kc.1) = false := by decide

/-- C7: with a non-empty selection, a predefined source whose key is
outside the selection leaves the run state untouched, while a
user-supplied extra source always records a stats entry. -/
theorem selection_filter (ext : Oracles) (sel : List (List Char)) (limit : Nat)
    (st : RunState) :
    (∀ kc ∈ DEFAULT_SOURCES, sel ≠ [] → kc.1 ∉ sel →
      processSource ext sel limit st kc = st) ∧
    (∀ (extra : List (List Nat)), ∀ kc ∈ extraItems extra,
      ∃ n, (processSource ext sel limit st kc).stats = st.stats ++ [(kc.1, n)]) := by
  constructor
  · intro kc hmem hsel hnot
    have hpre : ("user_rss_".data.isPrefixOf kc.1) = false :=
      default_sources_not_user kc hmem
    unfold processSource
    rw [if_pos ⟨⟨hsel, hnot⟩, by simp [hpre]⟩]
  · intro extra kc hmem
    obtain ⟨iu, hiu, hne, hkc⟩ :
        ∃ iu ∈ extra.enum, ¬(iu.2 = []) ∧
          (userRssKey iu.1,
            (⟨"Пользовательский RSS".data, "rss".data, iu.2, true⟩ : SourceCfg)) = kc := by
      simp only [extraItems, List.mem_filterMap] at hmem
      obtain ⟨iu, hiu, hsome⟩ := hmem
      by_cases hz : iu.2 = []
      · rw [if_pos hz] at hsome; cases hsome
      · rw [if_neg hz] at hsome
        exact ⟨iu, hiu, hz, Option.some.inj hsome⟩
    subst hkc
    have hpre : ("user_rss_".data.isPrefixOf (userRssKey iu.1)) = true := by
      rw [List.isPrefixOf_iff_prefix]
      exact List.prefix_append _ _
    unfold processSource
    rw [if_neg (by simp [hpre]), if_neg (by simp), if_neg hne]
    exact ⟨_, rfl⟩

/-- Witness for C7: the selection `habr_dev` makes `vc_all` a no-op,
while a user extra feed still records its stats entry. -/
theorem selection_filter_witness :
    processSource extBase ["habr_dev".data] 20 ⟨[], [], []⟩
      ("vc_all".data, ⟨"VC.ru — Все".data, "rss".data, asciiBytes "https://vc.ru/rss/all", true⟩) =
      ⟨[], [], []⟩ ∧
    ∃ n, (processSource extBase ["habr_dev".data] 20 ⟨[], [], []⟩
        ("user_rss_1".data,
          ⟨"Пользовательский RSS".data, "rss".data, asciiBytes "http://e.x/f", true⟩)).stats =
      [] ++ [("user_rss_1".data, n)] :=
  ⟨(selection_filter extBase ["habr_dev".data] 20 ⟨[], [], []⟩).1 _ (by decide)
      (by decide) (by decide),
   (selection_filter extBase ["habr_dev".data] 20 ⟨[], [], []⟩).2
      [[], asciiBytes "http://e.x/f"] _ (by decide)⟩

/-- C8: when a source passes the selection, type, and url gates but
its feed fetch errors out, the run records a zero count for it, keeps
the store and cache unchanged, and goes on to fold the remaining
sources from that state. -/
theorem feed_error_zero_count (ext : Oracles) (sel : List (List Char)) (limit : Nat)
    (st : RunState) (key : List Char) (cfg : SourceCfg)
    (hsel : ¬((sel ≠ [] ∧ key ∉ sel) ∧ ¬("user_rss_".data.isPrefixOf key = true)))
    (htype : cfg.type = "rss".data) (hurl : cfg.url ≠ [])
    (herr : ext.feed cfg.url = none) :
    processSource ext sel limit st (key, cfg) =
      ⟨st.stats ++ [(key, 0)], st.db, st.cache⟩ ∧
    ∀ srcs : List (List Char × SourceCfg),
      List.foldl (processSource ext sel limit) st ((key, cfg) :: srcs) =
        List.foldl (processSource ext sel limit)
          (⟨st.stats ++ [(key, 0)], st.db, st.cache⟩ : RunState) srcs := by
  have h1 : processSource ext sel limit st (key, cfg) =
      ⟨st.stats ++ [(key, 0)], st.db, st.cache⟩ := by
    unfold processSource
    rw [if_neg hsel, if_neg (by simp [htype]), if_neg hurl, herr]
    simp
  refine ⟨h1, fun srcs => ?_⟩
  rw [List.foldl_cons, h1]

/-- Witness for C8: with the concrete oracles every predefined feed
fetch fails; `vc_all` contributes a zero count over an empty state. -/
theorem feed_error_zero_count_witness :
    processSource extBase [] 20 ⟨[], [], []⟩
      ("vc_all".data, ⟨"VC.ru — Все".data, "rss".data, asciiBytes "https://vc.ru/rss/all", true⟩) =
      ⟨[("vc_all".data, 0)], [], []⟩ :=
  (feed_error_zero_count extBase [] 20 ⟨[], [], []⟩ "vc_all".data
    ⟨"VC.ru — Все".data, "rss".data, asciiBytes "https://vc.ru/rss/all", true⟩
    (by decide) rfl (by decide) (by decide)).1

/-- Case split of `processEntry`: either the entry is dropped by a
dedup stage (store unchanged) or exactly one article is appended,
whose title is the stripped entry title with the placeholder
fallback. -/
theorem processEntry_db_cases (ext : Oracles) (key : List Char) (cfg : SourceCfg)
    (st : EntryState) (entry : Entry) :
    (processEntry ext key cfg st entry).db = st.db ∨
    ∃ art, (processEntry ext key cfg st entry).db = st.db ++ [art] ∧
      art.title = (if pyStripChars entry.title ≠ [] then pyStripChars entry.title
        else "(без заголовка)".data) := by
  simp only [processEntry]
  split
  · exact Or.inl rfl
  · split
    · exact Or.inl rfl
    · exact Or.inr ⟨_, rfl, rfl⟩

/-- Any article in the store after `processEntry` was already stored
or has a non-empty title, the placeholder when the entry title
stripped to nothing. -/
theorem processEntry_mem {ext : Oracles} {key : List Char} {cfg : SourceCfg}
    {st : EntryState} {entry : Entry} {a : Article}
    (h : a ∈ (processEntry ext key cfg st entry).db) :
    a ∈ st.db ∨ (a.title ≠ [] ∧
      (pyStripChars entry.title = [] → a.title = "(без заголовка)".data)) := by
  rcases processEntry_db_cases ext key cfg st entry with hc | ⟨art, hc, ht⟩
  · rw [hc] at h; exact Or.inl h
  · rw [hc] at h
    rcases List.mem_append.mp h with h2 | h2
    · exact Or.inl h2
    · have ha : a = art := List.mem_singleton.mp h2
      subst ha
      by_cases hz : pyStripChars entry.title = []
      · rw [if_neg (by simp [hz])] at ht
        exact Or.inr ⟨by rw [ht]; decide, fun _ => ht⟩
      · rw [if_pos hz] at ht
        exact Or.inr ⟨by rw [ht]; exact hz, fun hcon => absurd hcon hz⟩

/-- Folding `processEntry` over a list of entries only appends
articles with non-empty titles. -/
theorem foldl_processEntry_mem (ext : Oracles) (key : List Char) (cfg : SourceCfg)
    (entries : List Entry) :
    ∀ (es : EntryState) (a : Article),
      a ∈ (entries.foldl (processEntry ext key cfg) es).db →
        a ∈ es.db ∨ a.title ≠ [] := by
  induction entries with
  | nil => intro es a h; exact Or.inl h
  | cons e rest ih =>
    intro es a h
    rw [List.foldl_cons] at h
    rcases ih (processEntry ext key cfg es e) a h with h2 | h2
    · rcases processEntry_mem h2 with h3 | h3
      · exact Or.inl h3
      · exact Or.inr h3.1
    · exact Or.inr h2

/-- One source only appends articles with non-empty titles. -/
theorem processSource_mem (ext : Oracles) (sel : List (List Char)) (limit : Nat)
    (st : RunState) (kc : List Char × SourceCfg) (a : Article)
    (h : a ∈ (processSource ext sel limit st kc).db) :
    a ∈ st.db ∨ a.title ≠ [] := by
  unfold processSource at h
  split at h
  · exact Or.inl h
  · split at h
    · exact Or.inl h
    · split at h
      · exact Or.inl h
      · exact foldl_processEntry_mem ext kc.1 kc.2 _ ⟨st.db, st.cache, 0⟩ a h

/-- A fold of sources only appends articles with non-empty titles. -/
theorem foldl_processSource_mem (ext : Oracles) (sel : List (List Char)) (limit : Nat)
    (srcs : List (List Char × SourceCfg)) :
    ∀ (st : RunState) (a : Article),
      a ∈ (srcs.foldl (processSource ext sel limit) st).db →
        a ∈ st.db ∨ a.title ≠ [] := by
  induction srcs with
  | nil => intro st a h; exact Or.inl h
  | cons kc rest ih =>
    intro st a h
    rw [List.foldl_cons] at h
    rcases ih _ a h with h2 | h2
    · exact processSource_mem ext sel limit st kc a h2
    · exact Or.inr h2

/-- C9: every article the run adds to the store has a non-empty
title, and an entry whose title strips to nothing is stored under the
placeholder title. -/
theorem persisted_title_nonempty (ext : Oracles) (db0 : List Article)
    (sel : List (List Char)) (limit : Nat) (extra : List (List Nat)) :
    (∀ a ∈ (fetch_and_store ext db0 sel limit extra).db, a ∈ db0 ∨ a.title ≠ []) ∧
    (∀ (key : List Char) (cfg : SourceCfg) (st : EntryState) (entry : Entry),
      pyStripChars entry.title = [] →
      ∀ a ∈ (processEntry ext key cfg st entry).db,
        a ∈ st.db ∨ a.title = "(без заголовка)".data) := by
  constructor
  · intro a h
    exact foldl_processSource_mem ext sel limit _ ⟨[], db0, []⟩ a h
  · intro key cfg st entry hz a h
    rcases processEntry_mem h with h2 | h2
    · exact Or.inl h2
    · exact Or.inr (h2.2 hz)

/-- A stored article used to instantiate the run-level C9 statement. -/
def artT : Article := ⟨"t".data, [], [], [], [], [], none, none, []⟩

/-- Witness for C9 at a concrete run over a one-article store. -/
theorem persisted_title_nonempty_witness :
    artT ∈ ([artT] : List Article) ∨ artT.title ≠ [] :=
  (persisted_title_nonempty extBase [artT] [] 20 []).1 artT (by decide)
